import Mathlib

/-!
# Verification of `atomate2/vasp/file.py`

A shallow embedding of the two operations of the module:

* `get_largest_relax_extension` — the relax-extension resolver;
* `copy_vasp_outputs` — the output copier.

File systems are modelled as association lists from file names to file
contents.  The four collaborator primitives (`glob`-style listing,
`copy_files`, `gunzip_files`, `rename_files`) are not part of the
repository sources; they are modelled from the specification's
collaborator contract (§6 of the design document).  Decompression is
modelled as name manipulation only: the payload string of `X.gz` is the
payload of `X` (the model does not encode the bytes of the gzip format).
-/

namespace Vasp

/-- Glob matching on lists of characters: `*` matches any (possibly
empty) sequence of characters, every other character matches itself.
Modelled from the spec: the `List` collaborator supports "matching
entries for a glob-style pattern". -/
def gmatch : List Char → List Char → Bool
  | [], cs => cs.isEmpty
  | p :: ps, cs =>
    if p = '*' then (List.range (cs.length + 1)).any (fun i => gmatch ps (cs.drop i))
    else
      match cs with
      | [] => false
      | c :: cs' => (p = c) && gmatch ps cs'

/-- Glob matching on strings. -/
def globMatch (pat name : String) : Bool := gmatch pat.data name.data

/-- The digits captured by the Python regex search `.relax(\d+)` on a
character list: the leftmost position where one (arbitrary) character is
followed by the literal `relax` and at least one digit; the capture is
the maximal digit run.  Returns `none` when the regex does not match
(`re.search` returns `None` and `.group(1)` raises). -/
def findRelaxNum : List Char → Option (List Char)
  | [] => none
  | _ :: rest =>
    match rest with
    | 'r' :: 'e' :: 'l' :: 'a' :: 'x' :: rest2 =>
      let ds := rest2.takeWhile Char.isDigit
      if ds.isEmpty then findRelaxNum rest else some ds
    | _ => findRelaxNum rest

/-- String version of `findRelaxNum`. -/
def findRelaxNumS (s : String) : Option String :=
  (findRelaxNum s.data).map (fun ds => ⟨ds⟩)

/-- Numeric value of a decimal digit character. -/
def digitVal (c : Char) : Nat := c.toNat - 48

/-- `int(s)` for a string of decimal digits. -/
def strNat (s : String) : Nat := s.data.foldl (fun a c => a * 10 + digitVal c) 0

/-- Python's `max(x :: xs, key=int)`: the first element whose key is
maximal (later elements replace the current maximum only when strictly
greater). -/
def maxByInt (x : String) (xs : List String) : String :=
  xs.foldl (fun acc y => if strNat y > strNat acc then y else acc) x

/-- Map a fallible function over a list, failing at the first `none`
(the behaviour of the Python list comprehension
`[re.search(...).group(1) for file in relax_files]`, which raises at the
first file whose search returns `None`). -/
def mapOpt (f : α → Option β) : List α → Option (List β)
  | [] => some []
  | a :: l =>
    match f a with
    | none => none
    | some b => (mapOpt f l).map (fun bs => b :: bs)

/-- Errors of the copier.  The Python code raises distinct exceptions:
an `AttributeError` from a failed regex parse, a copy failure for an
unmatched required pattern, the explicit "Could not find POTCAR file to
copy" error, and a rename failure for a missing exact name. -/
inductive VErr where
  | parseError : VErr
  | copyError (pat : String) : VErr
  | missingPotcar : VErr
  | renameError (key : String) : VErr
deriving DecidableEq, Repr

instance {ε α : Type} [DecidableEq ε] [DecidableEq α] : DecidableEq (Except ε α)
  | .ok a, .ok b =>
    if h : a = b then isTrue (by rw [h]) else isFalse (by intro he; cases he; exact h rfl)
  | .ok _, .error _ => isFalse (by intro h; cases h)
  | .error _, .ok _ => isFalse (by intro h; cases h)
  | .error e, .error f =>
    if h : e = f then isTrue (by rw [h]) else isFalse (by intro he; cases he; exact h rfl)

/-- `get_largest_relax_extension`: glob the directory listing for
`*.relax*`; if nothing matches return `""`; otherwise extract the digit
group of each match (a failed parse is fatal) and return
`".relax" ++ m` where `m` is the suffix with the numerically largest
integer value (first such, as Python's `max` with a key).  The inner
`match` on `[]` is unreachable: the matched list is non-empty. -/
def get_largest_relax_extension (listing : List String) : Except VErr String :=
  let relax_files := listing.filter (fun f => globMatch "*.relax*" f)
  if relax_files.isEmpty then .ok ""
  else
    match mapOpt findRelaxNumS relax_files with
    | none => .error .parseError
    | some numbers =>
      .ok (".relax" ++ (match numbers with
        | [] => ""
        | n :: ns => maxByInt n ns))

/-- A file system context: the source directory and the destination
(current) directory, each an association list of (name, contents). -/
structure FS where
  src : List (String × String)
  dst : List (String × String)
deriving DecidableEq, Repr

/-- Remove every entry named `n`. -/
def eraseName (n : String) (d : List (String × String)) : List (String × String) :=
  d.filter (fun e => e.1 ≠ n)

/-- Write file `n` with contents `c`, overwriting any existing entry. -/
def upsert (n c : String) (d : List (String × String)) : List (String × String) :=
  eraseName n d ++ [(n, c)]

/-- Contents of the (first) entry named `n`. -/
def lookupD : List (String × String) → String → Option String
  | [], _ => none
  | e :: es, n => if e.1 = n then some e.2 else lookupD es n

/-- Modelled from the spec: the `Copy` collaborator.  For each include
pattern in order, collect the source entries matching it; in strict mode
a pattern with no match is a hard failure, in lenient mode it is
skipped; matches are copied into the destination (overwriting). -/
def copy_files (includeFiles : List String) (allowMissing : Bool) (st : FS) :
    Except VErr FS :=
  match includeFiles with
  | [] => .ok st
  | pat :: rest =>
    let ms := st.src.filter (fun e => globMatch pat e.1)
    if ms.isEmpty then
      if allowMissing then copy_files rest allowMissing st
      else .error (.copyError pat)
    else
      copy_files rest allowMissing
        { st with dst := ms.foldl (fun d e => upsert e.1 e.2 d) st.dst }

/-- `name` ends with `".gz"`. -/
def endsGz (n : String) : Bool :=
  decide (n.data.drop (n.data.length - 3) = ['.', 'g', 'z'])

/-- Drop a trailing `".gz"`. -/
def stripGz (n : String) : String := ⟨n.data.take (n.data.length - 3)⟩

/-- The file is matched by one of the include patterns and carries the
`.gz` suffix, so the `Decompress` collaborator acts on it. -/
def gzCond (includeFiles : List String) (e : String × String) : Bool :=
  (includeFiles.any (fun p => globMatch p e.1)) && endsGz e.1

def gunzipStep (includeFiles : List String) (d : List (String × String))
    (e : String × String) : List (String × String) :=
  if gzCond includeFiles e then
    upsert (stripGz e.1) e.2 (eraseName e.1 d)
  else d

/-- Modelled from the spec: the `Decompress` collaborator.  Every
destination file that matches one of the include patterns and carries
the `.gz` suffix is replaced by the file with the suffix removed (the
payload string is preserved by the model); absence is tolerated. -/
def gunzip_files (includeFiles : List String) (st : FS) : FS :=
  { st with dst := st.dst.foldl (gunzipStep includeFiles) st.dst }

/-- Modelled from the spec: the `Rename` collaborator.  For each
(current name, target name) pair in order: if a destination file with
the current name exists it is renamed (overwriting the target name);
otherwise the pair is skipped in lenient mode and is a failure in
strict mode. -/
def rename_files (pairs : List (String × String)) (allowMissing : Bool) (st : FS) :
    Except VErr FS :=
  match pairs with
  | [] => .ok st
  | kv :: rest =>
    match lookupD st.dst kv.1 with
    | some c =>
      rename_files rest allowMissing
        { st with dst := upsert kv.2 c (eraseName kv.1 st.dst) }
    | none =>
      if allowMissing then rename_files rest allowMissing st
      else .error (.renameError kv.1)

/-- Python's `s.replace(pat, "")` on character lists (pattern
occurrences are removed left-to-right, non-overlapping; the empty
pattern removes nothing). -/
def replAllF (pat : List Char) : Nat → List Char → List Char
  | 0, _ => []
  | fuel + 1, cs =>
    match cs with
    | [] => []
    | c :: cs' =>
      if pat ≠ [] ∧ pat.isPrefixOf (c :: cs') then
        replAllF pat fuel (cs'.drop (pat.length - 1))
      else
        c :: replAllF pat fuel cs'

/-- `replAllF` with enough fuel to process the whole list. -/
def replAll (pat cs : List Char) : List Char := replAllF pat cs.length cs

/-- `s.replace(pat, "")` on strings. -/
def replaceStr (s pat : String) : String := ⟨replAll pat.data s.data⟩

/-- The fixed required base names, extended by the caller's additional
files. -/
def requiredBase (additional : List String) : List String :=
  ["INCAR", "OUTCAR", "CONTCAR", "vasprun.xml"] ++ additional

/-- The fixed optional base names. -/
def optionalBase : List String := ["POTCAR", "POTCAR.spec", "KPOINTS"]

/-- `f + relax_ext + "*"` for each base name (the wildcard allows for
gzip compression). -/
def mkPatterns (bases : List String) (ext : String) : List String :=
  bases.map (fun f => f ++ ext ++ "*")

/-- `len(file_client.glob("POTCAR*")) == 0` evaluated on the
destination. -/
def potcarAbsent (st : FS) : Bool :=
  (st.dst.filter (fun e => globMatch "POTCAR*" e.1)).length == 0

/-- The rename mapping `{k.replace("*", ""): k.replace(relax_ext + "*", "")
for k in all_files}` (Python's dict comprehension builds the pairs in
list order; duplicate patterns would produce identical pairs, so the
association-list model renames exactly the same files). -/
def relaxRenameMap (ext : String) (allFiles : List String) : List (String × String) :=
  allFiles.map (fun k => (replaceStr k "*", replaceStr k (ext ++ "*")))

/-- The tail of `copy_vasp_outputs` after the two copy phases: the
POTCAR check, decompression, relax-suffix stripping and the
CONTCAR → POSCAR rename. -/
def finish_copy (relax_ext : String) (required_files optional_files : List String)
    (contcar_to_poscar : Bool) (st : FS) : Except VErr FS :=
  if potcarAbsent st then .error .missingPotcar
  else
    (if relax_ext ≠ "" then
        rename_files (relaxRenameMap relax_ext (optional_files ++ required_files)) true
          (gunzip_files (required_files ++ optional_files) st)
      else .ok (gunzip_files (required_files ++ optional_files) st)).bind
      (fun st =>
        if contcar_to_poscar then rename_files [("CONTCAR", "POSCAR")] false st
        else .ok st)

/-- `copy_vasp_outputs`: resolve the relax extension from the source
listing, strictly copy the required patterns, leniently copy the
optional patterns, then check/gunzip/rename via `finish_copy`. -/
def copy_vasp_outputs (additional_vasp_files : List String)
    (contcar_to_poscar : Bool) (st : FS) : Except VErr FS := do
  let relax_ext ← get_largest_relax_extension (st.src.map (fun e => e.1))
  let required_files := mkPatterns (requiredBase additional_vasp_files) relax_ext
  let st ← copy_files required_files false st
  let optional_files := mkPatterns optionalBase relax_ext
  let st ← copy_files optional_files true st
  finish_copy relax_ext required_files optional_files contcar_to_poscar st

/-- A digit string has no leading zero (it is the canonical decimal
numeral of its value). -/
def NLZ (s : String) : Prop := s.data.head? = some '0' → s.data = ['0']

instance (s : String) : Decidable (NLZ s) := by unfold NLZ; infer_instance

/-- The file names of a directory. -/
def namesD (d : List (String × String)) : List String := d.map Prod.fst

/-- `m` is one of the names the `Copy` collaborator would copy: a source
entry named `m` matching one of the include patterns. -/
def CopiedName (src : List (String × String)) (pats : List String) (m : String) : Prop :=
  ∃ e ∈ src, e.1 = m ∧ ∃ p ∈ pats, globMatch p e.1 = true

instance {src : List (String × String)} {pats : List String} {m : String} :
    Decidable (CopiedName src pats m) := by
  unfold CopiedName; infer_instance

/-- The base-name catalogue of a run: required (with caller additions)
then optional. -/
def allBases (additional : List String) : List String :=
  requiredBase additional ++ optionalBase

/-- The content the pipeline ends up storing under base name `b`: the
(gunzipped) `b ++ ext ++ ".gz"` source file if present, else the plain
`b ++ ext` source file, else whatever the destination already held
under `b`. -/
def canonVal (src d0 : List (String × String)) (ext b : String) : Option String :=
  match lookupD src (b ++ ext ++ ".gz") with
  | some c => some c
  | none =>
    match lookupD src (b ++ ext) with
    | some c => some c
    | none => lookupD d0 b

/-- A canonical relax-suffixed example source directory. -/
def srcCanonW : List (String × String) :=
  [("INCAR.relax2", "i"), ("OUTCAR.relax2", "o"), ("CONTCAR.relax2", "c"),
   ("vasprun.xml.relax2.gz", "v"), ("POTCAR.relax2", "p")]

/-- The destination produced by copying `srcCanonW`. -/
def dstCanonW : List (String × String) :=
  [("POTCAR", "p"), ("INCAR", "i"), ("OUTCAR", "o"), ("vasprun.xml", "v"),
   ("POSCAR", "c")]

/-! ## Resolver lemmas -/

theorem mapOpt_eq_none {α β : Type} {f : α → Option β} {l : List α} {a : α}
    (ha : a ∈ l) (hfa : f a = none) : mapOpt f l = none := by
  induction l with
  | nil => cases ha
  | cons x xs ih =>
    rcases List.mem_cons.mp ha with rfl | hmem
    · simp [mapOpt, hfa]
    · unfold mapOpt
      cases hfx : f x
      · rfl
      · simp [ih hmem]

theorem mapOpt_forall₂ {α β : Type} {f : α → Option β} :
    ∀ {l : List α} {v : List β}, mapOpt f l = some v →
      List.Forall₂ (fun a b => f a = some b) l v := by
  intro l
  induction l with
  | nil => intro v hv; cases hv; exact List.Forall₂.nil
  | cons x xs ih =>
    intro v hv
    unfold mapOpt at hv
    cases hfx : f x with
    | none => rw [hfx] at hv; cases hv
    | some b =>
      rw [hfx] at hv
      cases hrest : mapOpt f xs with
      | none => rw [hrest] at hv; cases hv
      | some bs =>
        rw [hrest] at hv
        simp only [Option.map_some] at hv
        cases hv
        exact List.Forall₂.cons hfx (ih hrest)

theorem findRelaxNum_some : ∀ {cs ds : List Char}, findRelaxNum cs = some ds →
    ds ≠ [] ∧ ∀ c ∈ ds, c.isDigit = true := by
  intro cs
  induction cs with
  | nil => intro ds h; cases h
  | cons c rest ih =>
    intro ds h
    unfold findRelaxNum at h
    split at h
    next rest2 =>
      by_cases he : (rest2.takeWhile Char.isDigit).isEmpty
      · rw [if_pos he] at h; exact ih h
      · rw [if_neg he] at h
        cases h
        refine ⟨by simpa [List.isEmpty_iff] using he, ?_⟩
        intro d hd
        exact List.mem_takeWhile_imp hd
    next => exact ih h

/-- C2: for every directory listing in which no entry matches
`*.relax*`, `get_largest_relax_extension` returns the empty string. -/
theorem relax_extension_empty_of_no_match (l : List String)
    (h : ∀ f ∈ l, globMatch "*.relax*" f = false) :
    get_largest_relax_extension l = .ok "" := by
  unfold get_largest_relax_extension
  have hnil : l.filter (fun f => globMatch "*.relax*" f) = [] := by
    simpa [List.filter_eq_nil_iff] using h
  simp [hnil]

/-- C2 witness: a concrete listing without relax files resolves to the
empty extension. -/
theorem relax_extension_empty_of_no_match_witness :
    (∀ f ∈ ["INCAR", "OUTCAR.gz", "vasprun.xml"], globMatch "*.relax*" f = false) ∧
      get_largest_relax_extension ["INCAR", "OUTCAR.gz", "vasprun.xml"] = .ok "" :=
  ⟨by decide, relax_extension_empty_of_no_match _ (by decide)⟩

/-- C5: if some file of the listing matches `*.relax*` but carries no
parseable relax number (the regex search `.relax(\d+)` fails on it),
the resolver fails with the parse error instead of returning an
extension. -/
theorem relax_extension_parse_failure (l : List String) (f : String)
    (hf : f ∈ l) (hm : globMatch "*.relax*" f = true)
    (hp : findRelaxNumS f = none) :
    get_largest_relax_extension l = .error .parseError := by
  unfold get_largest_relax_extension
  have hmem : f ∈ l.filter (fun f => globMatch "*.relax*" f) :=
    List.mem_filter.mpr ⟨hf, hm⟩
  have hne : (l.filter (fun f => globMatch "*.relax*" f)).isEmpty = false := by
    rcases hcase : l.filter (fun f => globMatch "*.relax*" f) with _ | ⟨x, xs⟩
    · rw [hcase] at hmem; cases hmem
    · rfl
  simp [hne, mapOpt_eq_none hmem hp]

/-- C5 witness: a file named `CONTCAR.relax` (digits missing after
`.relax`) is matched by the glob but unparseable, and the resolver
fails. -/
theorem relax_extension_parse_failure_witness :
    ("CONTCAR.relax" ∈ ["CONTCAR.relax"] ∧
        globMatch "*.relax*" "CONTCAR.relax" = true ∧
        findRelaxNumS "CONTCAR.relax" = none) ∧
      get_largest_relax_extension ["CONTCAR.relax"] = .error .parseError :=
  ⟨⟨by decide, by decide, by decide⟩,
    relax_extension_parse_failure _ "CONTCAR.relax" (by decide) (by decide) (by decide)⟩

/-! ## Decimal digit strings -/

theorem isDigit_toNat {c : Char} (h : c.isDigit = true) : 48 ≤ c.toNat ∧ c.toNat ≤ 57 := by
  simp [Char.isDigit] at h
  exact ⟨h.1, h.2⟩

theorem digitVal_lt_ten {c : Char} (h : c.isDigit = true) : digitVal c < 10 := by
  have := isDigit_toNat h
  unfold digitVal
  omega

theorem char_eq_of_digitVal_eq {c d : Char} (hc : c.isDigit = true) (hd : d.isDigit = true)
    (h : digitVal c = digitVal d) : c = d := by
  have h1 := isDigit_toNat hc
  have h2 := isDigit_toNat hd
  unfold digitVal at h
  apply Char.ext
  apply UInt32.ext
  show c.toNat = d.toNat
  omega

theorem eq_zero_char_of_digitVal_eq_zero {c : Char} (hc : c.isDigit = true)
    (h : digitVal c = 0) : c = '0' :=
  char_eq_of_digitVal_eq hc (by decide) (by simpa [digitVal] using h)

theorem map_digitVal_inj : ∀ (cs ds : List Char), (∀ c ∈ cs, c.isDigit = true) →
    (∀ c ∈ ds, c.isDigit = true) → cs.map digitVal = ds.map digitVal → cs = ds := by
  intro cs
  induction cs with
  | nil => intro ds _ _ h; cases ds <;> simp_all
  | cons c cs ih =>
    intro ds hcs hds h
    cases ds with
    | nil => simp at h
    | cons d ds =>
      simp only [List.map_cons, List.cons.injEq] at h
      have hc := hcs c (by simp)
      have hd := hds d (by simp)
      rw [char_eq_of_digitVal_eq hc hd h.1,
        ih ds (fun x hx => hcs x (by simp [hx])) (fun x hx => hds x (by simp [hx])) h.2]

theorem strNat_foldl_acc (cs : List Char) : ∀ a : ℕ,
    cs.foldl (fun a c => a * 10 + digitVal c) a =
      a * 10 ^ cs.length + cs.foldl (fun a c => a * 10 + digitVal c) 0 := by
  induction cs with
  | nil => intro a; simp
  | cons c cs ih =>
    intro a
    simp only [List.foldl_cons, List.length_cons]
    rw [ih (a * 10 + digitVal c), ih (0 * 10 + digitVal c)]
    ring

theorem strNat_eq_ofDigits (s : String) :
    strNat s = Nat.ofDigits 10 (s.data.map digitVal).reverse := by
  show s.data.foldl _ 0 = _
  induction s.data with
  | nil => simp
  | cons c cs ih =>
    simp only [List.foldl_cons, List.map_cons, List.reverse_cons]
    rw [Nat.ofDigits_append, strNat_foldl_acc cs (0 * 10 + digitVal c), ih]
    simp [Nat.ofDigits_singleton]
    ring

theorem digits_strNat (u : String) (hd : ∀ c ∈ u.data, c.isDigit = true)
    (hne : u.data ≠ []) (h0 : NLZ u) (hn0 : u.data ≠ ['0']) :
    Nat.digits 10 (strNat u) = (u.data.map digitVal).reverse := by
  rw [strNat_eq_ofDigits]
  apply Nat.digits_ofDigits 10 (by norm_num)
  · intro l hl
    rw [List.mem_reverse] at hl
    obtain ⟨c, hc, rfl⟩ := List.mem_map.mp hl
    exact digitVal_lt_ten (hd c hc)
  · intro hL hlast
    have hsome : ((u.data.map digitVal).reverse).getLast? = some 0 := by
      rw [List.getLast?_eq_getLast _ hL, hlast]
    rw [List.getLast?_reverse, List.head?_map] at hsome
    cases hhead : u.data.head? with
    | none => rw [hhead] at hsome; cases hsome
    | some c₀ =>
      rw [hhead] at hsome
      simp at hsome
      have hmem : c₀ ∈ u.data := List.mem_of_mem_head? hhead
      have : c₀ = '0' := eq_zero_char_of_digitVal_eq_zero (hd c₀ hmem) hsome
      rw [this] at hhead
      exact hn0 (h0 hhead)

theorem strNat_zero_string : strNat ⟨['0']⟩ = 0 := by decide

theorem strNat_inj {s t : String}
    (hsd : ∀ c ∈ s.data, c.isDigit = true) (hsne : s.data ≠ []) (hs0 : NLZ s)
    (htd : ∀ c ∈ t.data, c.isDigit = true) (htne : t.data ≠ []) (ht0 : NLZ t)
    (h : strNat s = strNat t) : s = t := by
  have data_eq : s.data = t.data → s = t := fun hh => by
    cases s; cases t; exact congrArg String.mk hh
  by_cases hs : s.data = ['0']
  · have hz : strNat s = 0 := by
      have : s = ⟨['0']⟩ := by cases s; exact congrArg String.mk hs
      rw [this]; exact strNat_zero_string
    by_cases ht : t.data = ['0']
    · exact data_eq (hs.trans ht.symm)
    · exfalso
      have hdig := digits_strNat t htd htne ht0 ht
      rw [← h, hz, Nat.digits_zero] at hdig
      have := hdig.symm
      rw [List.reverse_eq_nil_iff, List.map_eq_nil_iff] at this
      exact htne this
  · by_cases ht : t.data = ['0']
    · exfalso
      have hz : strNat t = 0 := by
        have : t = ⟨['0']⟩ := by cases t; exact congrArg String.mk ht
        rw [this]; exact strNat_zero_string
      have hdig := digits_strNat s hsd hsne hs0 hs
      rw [h, hz, Nat.digits_zero] at hdig
      have := hdig.symm
      rw [List.reverse_eq_nil_iff, List.map_eq_nil_iff] at this
      exact hsne this
    · have h1 := digits_strNat s hsd hsne hs0 hs
      have h2 := digits_strNat t htd htne ht0 ht
      rw [h, h2] at h1
      have : t.data.map digitVal = s.data.map digitVal :=
        List.reverse_injective h1
      exact data_eq (map_digitVal_inj s.data t.data hsd htd this.symm)

/-! ## `maxByInt` lemmas -/

theorem maxByInt_cons (x y : String) (ys : List String) :
    maxByInt x (y :: ys) = maxByInt (if strNat y > strNat x then y else x) ys := rfl

theorem maxByInt_mem (x : String) (xs : List String) : maxByInt x xs ∈ x :: xs := by
  induction xs generalizing x with
  | nil => simp [maxByInt]
  | cons y ys ih =>
    rw [maxByInt_cons]
    have hmem := ih (if strNat y > strNat x then y else x)
    rcases List.mem_cons.mp hmem with hh | hh
    · rw [hh]
      by_cases hc : strNat y > strNat x <;> simp [hc]
    · simp [List.mem_cons.mpr (Or.inr hh)]

theorem maxByInt_le (x : String) (xs : List String) :
    ∀ y ∈ x :: xs, strNat y ≤ strNat (maxByInt x xs) := by
  induction xs generalizing x with
  | nil =>
    intro y hy
    rcases List.mem_cons.mp hy with rfl | hh
    · simp [maxByInt]
    · cases hh
  | cons z zs ih =>
    intro y hy
    rw [maxByInt_cons]
    have hxw : strNat x ≤ strNat (if strNat z > strNat x then z else x) := by
      by_cases hc : strNat z > strNat x <;> simp [hc] <;> omega
    have hzw : strNat z ≤ strNat (if strNat z > strNat x then z else x) := by
      by_cases hc : strNat z > strNat x <;> simp [hc] <;> omega
    have hw := ih (if strNat z > strNat x then z else x)
    rcases List.mem_cons.mp hy with rfl | hh
    · exact le_trans hxw (hw _ (by simp))
    · rcases List.mem_cons.mp hh with rfl | hh2
      · exact le_trans hzw (hw _ (by simp))
      · exact hw y (by simp [hh2])

/-! ## `mapOpt` and permutations -/

theorem mapOpt_total {α β : Type} (f : α → Option β) :
    ∀ (l : List α), (∀ a ∈ l, ∃ b, f a = some b) → ∃ v, mapOpt f l = some v := by
  intro l
  induction l with
  | nil => intro _; exact ⟨[], rfl⟩
  | cons a l ih =>
    intro h
    obtain ⟨b, hb⟩ := h a (by simp)
    obtain ⟨v, hv⟩ := ih (fun x hx => h x (by simp [hx]))
    exact ⟨b :: v, by simp [mapOpt, hb, hv]⟩

theorem forall₂_mem_right {α β : Type} {R : α → β → Prop} :
    ∀ {l : List α} {v : List β}, List.Forall₂ R l v → ∀ b ∈ v, ∃ a ∈ l, R a b := by
  intro l v h
  induction h with
  | nil => intro b hb; cases hb
  | cons hR _ ih =>
    intro b hb
    rcases List.mem_cons.mp hb with rfl | hh
    · exact ⟨_, by simp, hR⟩
    · obtain ⟨a, ha, hra⟩ := ih b hh
      exact ⟨a, by simp [ha], hra⟩

theorem forall₂_mem_left {α β : Type} {R : α → β → Prop} :
    ∀ {l : List α} {v : List β}, List.Forall₂ R l v → ∀ a ∈ l, ∃ b ∈ v, R a b := by
  intro l v h
  induction h with
  | nil => intro a ha; cases ha
  | cons hR _ ih =>
    intro a ha
    rcases List.mem_cons.mp ha with rfl | hh
    · exact ⟨_, by simp, hR⟩
    · obtain ⟨b, hb, hrb⟩ := ih a hh
      exact ⟨b, by simp [hb], hrb⟩

theorem mapOpt_perm {α β : Type} (f : α → Option β) {l l' : List α} (h : l.Perm l') :
    ∀ {v : List β}, mapOpt f l = some v → ∃ v', mapOpt f l' = some v' ∧ v.Perm v' := by
  induction h with
  | nil => intro v hv; exact ⟨v, hv, List.Perm.refl v⟩
  | @cons a l₁ l₂ _ ih =>
    intro v hv
    unfold mapOpt at hv
    cases hfa : f a with
    | none => rw [hfa] at hv; cases hv
    | some b =>
      rw [hfa] at hv
      cases hrest : mapOpt f l₁ with
      | none => rw [hrest] at hv; cases hv
      | some vs =>
        rw [hrest] at hv
        simp only [Option.map_some] at hv
        cases hv
        obtain ⟨vs', hvs', hperm⟩ := ih hrest
        exact ⟨b :: vs', by simp [mapOpt, hfa, hvs'], List.Perm.cons b hperm⟩
  | swap x y l =>
    intro v hv
    rcases hfx : f x with _ | bx <;> rcases hfy : f y with _ | hb <;>
      rcases hrest : mapOpt f l with _ | vs <;>
      simp [mapOpt, hfx, hfy, hrest] at hv ⊢
    subst hv
    exact List.Perm.swap bx hb vs
  | trans _ _ ih₁ ih₂ =>
    intro v hv
    obtain ⟨v₁, hv₁, hp₁⟩ := ih₁ hv
    obtain ⟨v₂, hv₂, hp₂⟩ := ih₂ hv₁
    exact ⟨v₂, hv₂, hp₁.trans hp₂⟩

theorem findRelaxNumS_shape {f : String} {s : String} (h : findRelaxNumS f = some s) :
    s.data ≠ [] ∧ ∀ c ∈ s.data, c.isDigit = true := by
  unfold findRelaxNumS at h
  cases hfd : findRelaxNum f.data with
  | none => rw [hfd] at h; cases h
  | some ds =>
    rw [hfd] at h
    simp at h
    cases h
    exact findRelaxNum_some hfd

theorem resolver_of_filter {l : List String} {x : String} {xs : List String}
    (hF : l.filter (fun f => globMatch "*.relax*" f) = x :: xs)
    {n : String} {ns : List String}
    (hmap : mapOpt findRelaxNumS (x :: xs) = some (n :: ns)) :
    get_largest_relax_extension l = .ok (".relax" ++ maxByInt n ns) := by
  unfold get_largest_relax_extension
  simp [hF, hmap]

/-- C1 counterexample: with files whose relax suffixes carry a leading
zero, the resolver is order-dependent (and does not return the decimal
numeral of the maximum): the two listings are permutations of each
other, yet the resolver returns `.relax02` for one and `.relax2` for
the other. -/
theorem relax_extension_order_dependent :
    get_largest_relax_extension ["a.relax02", "b.relax2"] = .ok ".relax02" ∧
      get_largest_relax_extension ["b.relax2", "a.relax02"] = .ok ".relax2" ∧
      List.Perm ["a.relax02", "b.relax2"] ["b.relax2", "a.relax02"] ∧
      (".relax02" : String) ≠ ".relax2" := by
  refine ⟨by decide, by decide, ?_, by decide⟩
  decide

/-- C1 amended: provided every `*.relax*` file has a parseable relax
suffix written without leading zeros (the canonical decimal numeral),
the resolver returns `".relax" ++ s` where `s` is a suffix occurring in
the directory whose integer value is maximal among all suffixes —
numeric, not lexical, comparison — and the result is independent of the
order in which the listing returns the files. -/
theorem relax_extension_largest (l : List String)
    (hne : l.filter (fun f => globMatch "*.relax*" f) ≠ [])
    (hp : ∀ f ∈ l.filter (fun f => globMatch "*.relax*" f),
      ∃ s, findRelaxNumS f = some s ∧ NLZ s) :
    ∃ s : String,
      get_largest_relax_extension l = .ok (".relax" ++ s) ∧
      (∃ f ∈ l.filter (fun f => globMatch "*.relax*" f), findRelaxNumS f = some s) ∧
      (∀ f ∈ l.filter (fun f => globMatch "*.relax*" f), ∀ t,
        findRelaxNumS f = some t → strNat t ≤ strNat s) ∧
      (∀ l', l.Perm l' →
        get_largest_relax_extension l' = get_largest_relax_extension l) := by
  cases hF : l.filter (fun f => globMatch "*.relax*" f) with
  | nil => exact absurd hF hne
  | cons x xs =>
    have hp' : ∀ f ∈ x :: xs, ∃ b, findRelaxNumS f = some b := by
      intro f hf
      obtain ⟨s, hs, _⟩ := hp f (hF ▸ hf)
      exact ⟨s, hs⟩
    obtain ⟨v, hv⟩ := mapOpt_total _ (x :: xs) hp'
    have hfa := mapOpt_forall₂ hv
    cases v with
    | nil => cases hfa
    | cons n ns =>
      have hcanon : ∀ a ∈ n :: ns,
          (∀ c ∈ a.data, c.isDigit = true) ∧ a.data ≠ [] ∧ NLZ a := by
        intro a ha
        obtain ⟨f, hfmem, hfr⟩ := forall₂_mem_right hfa a ha
        have hfl : f ∈ l.filter (fun f => globMatch "*.relax*" f) := hF ▸ hfmem
        obtain ⟨s, hs, hnlz⟩ := hp f hfl
        rw [hfr] at hs
        cases Option.some.inj hs
        have hshape := findRelaxNumS_shape hfr
        exact ⟨hshape.2, hshape.1, hnlz⟩
      refine ⟨maxByInt n ns, resolver_of_filter hF hv, ?_, ?_, ?_⟩
      · obtain ⟨f, hfmem, hfr⟩ := forall₂_mem_right hfa _ (maxByInt_mem n ns)
        exact ⟨f, hF ▸ hfmem, hfr⟩
      · intro f hf t ht
        have hf' : f ∈ x :: xs := hF ▸ hf
        obtain ⟨b, hb, hbr⟩ := forall₂_mem_left hfa f hf'
        rw [ht] at hbr
        cases Option.some.inj hbr
        exact maxByInt_le n ns _ hb
      · intro l' hperm
        have hFperm := hperm.filter (fun f => globMatch "*.relax*" f)
        rw [hF] at hFperm
        obtain ⟨v', hv', hvperm⟩ := mapOpt_perm findRelaxNumS hFperm hv
        cases hF' : l'.filter (fun f => globMatch "*.relax*" f) with
        | nil =>
          exfalso
          rw [hF'] at hFperm
          simpa using hFperm.length_eq
        | cons y ys =>
          rw [hF'] at hv'
          cases v' with
          | nil => simpa using hvperm.length_eq
          | cons m ms =>
            rw [resolver_of_filter hF' hv', resolver_of_filter hF hv]
            have hrmem : maxByInt m ms ∈ n :: ns :=
              hvperm.mem_iff.mpr (maxByInt_mem m ms)
            have hnmem : maxByInt n ns ∈ m :: ms :=
              hvperm.mem_iff.mp (maxByInt_mem n ns)
            have heq : strNat (maxByInt m ms) = strNat (maxByInt n ns) :=
              le_antisymm (maxByInt_le n ns _ hrmem) (maxByInt_le m ms _ hnmem)
            have c1 := hcanon _ hrmem
            have c2 := hcanon _ (maxByInt_mem n ns)
            rw [strNat_inj c1.1 c1.2.1 c1.2.2 c2.1 c2.2.1 c2.2.2 heq]

/-- C1 amended witness: a listing with suffixes 10 and 2 (numerically
10 > 2 although lexically `"10" < "2"`). -/
theorem relax_extension_largest_witness :
    (["x.relax10.gz", "y.relax2.gz"].filter (fun f => globMatch "*.relax*" f) ≠ [] ∧
      ∀ f ∈ ["x.relax10.gz", "y.relax2.gz"].filter (fun f => globMatch "*.relax*" f),
        ∃ s, findRelaxNumS f = some s ∧ NLZ s) ∧
      ∃ s : String,
        get_largest_relax_extension ["x.relax10.gz", "y.relax2.gz"] = .ok (".relax" ++ s) ∧
        (∃ f ∈ ["x.relax10.gz", "y.relax2.gz"].filter (fun f => globMatch "*.relax*" f),
          findRelaxNumS f = some s) ∧
        (∀ f ∈ ["x.relax10.gz", "y.relax2.gz"].filter (fun f => globMatch "*.relax*" f),
          ∀ t, findRelaxNumS f = some t → strNat t ≤ strNat s) ∧
        (∀ l', (["x.relax10.gz", "y.relax2.gz"] : List String).Perm l' →
          get_largest_relax_extension l' =
            get_largest_relax_extension ["x.relax10.gz", "y.relax2.gz"]) := by
  have h1 : (["x.relax10.gz", "y.relax2.gz"].filter (fun f => globMatch "*.relax*" f)) ≠ [] := by
    decide
  have h2 : ∀ f ∈ ["x.relax10.gz", "y.relax2.gz"].filter (fun f => globMatch "*.relax*" f),
      ∃ s, findRelaxNumS f = some s ∧ NLZ s := by
    intro f hf
    have hfl : ["x.relax10.gz", "y.relax2.gz"].filter (fun f => globMatch "*.relax*" f) =
        ["x.relax10.gz", "y.relax2.gz"] := by decide
    rw [hfl] at hf
    simp only [List.mem_cons, List.not_mem_nil, or_false] at hf
    rcases hf with rfl | rfl
    · exact ⟨"10", by decide, by decide⟩
    · exact ⟨"2", by decide, by decide⟩
  exact ⟨⟨h1, h2⟩, relax_extension_largest _ h1 h2⟩

/-! ## Association-list lemmas -/

theorem lookupD_append (l₁ l₂ : List (String × String)) (m : String) :
    lookupD (l₁ ++ l₂) m =
      match lookupD l₁ m with
      | some c => some c
      | none => lookupD l₂ m := by
  induction l₁ with
  | nil => simp [lookupD]
  | cons e es ih =>
    by_cases h : e.1 = m <;> simp [lookupD, h, ih]

theorem lookupD_eraseName (n : String) (d : List (String × String)) (m : String) :
    lookupD (eraseName n d) m = if m = n then none else lookupD d m := by
  induction d with
  | nil => simp [eraseName, lookupD]
  | cons e es ih =>
    simp only [eraseName, ne_eq, decide_not] at ih ⊢
    rw [List.filter_cons]
    by_cases h1 : e.1 = n
    · by_cases h2 : m = n
      · subst h2
        simp [lookupD, h1, ih]
      · have h4 : ¬e.1 = m := fun hc => h2 ((hc.symm.trans h1))
        have h5 : ¬n = m := fun hc => h2 hc.symm
        simp [lookupD, h1, h2, h4, h5, ih]
    · by_cases h2 : e.1 = m
      · have h3 : ¬m = n := fun hc => h1 (h2.trans hc)
        simp [lookupD, h1, h2, h3]
      · simp [lookupD, h1, h2, ih]

theorem lookupD_upsert (n c : String) (d : List (String × String)) (m : String) :
    lookupD (upsert n c d) m = if m = n then some c else lookupD d m := by
  unfold upsert
  rw [lookupD_append, lookupD_eraseName]
  by_cases h : m = n
  · simp [lookupD, h]
  · have h2 : ¬n = m := fun hc => h hc.symm
    simp only [lookupD, h, h2, if_false]
    cases lookupD d m <;> rfl

theorem lookupD_isSome_of_mem {d : List (String × String)} {e : String × String}
    (h : e ∈ d) : lookupD d e.1 ≠ none := by
  induction d with
  | nil => cases h
  | cons x xs ih =>
    rcases List.mem_cons.mp h with rfl | hh
    · simp [lookupD]
    · by_cases hx : x.1 = e.1 <;> simp [lookupD, hx, ih hh]

theorem mem_namesD {d : List (String × String)} {m : String} :
    m ∈ namesD d ↔ lookupD d m ≠ none := by
  induction d with
  | nil => simp [namesD, lookupD]
  | cons e es ih =>
    by_cases h : e.1 = m
    · simp [namesD, lookupD, h]
    · have h' : ¬m = e.1 := fun hc => h hc.symm
      have hcons : namesD (e :: es) = e.1 :: namesD es := rfl
      rw [hcons, List.mem_cons, lookupD]
      simp [h, h', ih]

theorem lookupD_eq_some_of_mem_nodup {d : List (String × String)} {m c : String}
    (hnd : (namesD d).Nodup) (h : (m, c) ∈ d) : lookupD d m = some c := by
  induction d with
  | nil => cases h
  | cons e es ih =>
    simp only [namesD, List.map_cons, List.nodup_cons] at hnd
    rcases List.mem_cons.mp h with rfl | hh
    · simp [lookupD]
    · have : e.1 ≠ m := by
        intro hc
        exact hnd.1 (hc ▸ (List.mem_map.mpr ⟨(m, c), hh, rfl⟩))
      simp [lookupD, this, ih hnd.2 hh]

theorem nodup_eraseName {d : List (String × String)} (n : String)
    (h : (namesD d).Nodup) : (namesD (eraseName n d)).Nodup := by
  have hsub : List.Sublist (namesD (eraseName n d)) (namesD d) :=
    (List.filter_sublist d).map Prod.fst
  exact h.sublist hsub

theorem not_mem_namesD_eraseName (n : String) (d : List (String × String)) :
    n ∉ namesD (eraseName n d) := by
  intro h
  obtain ⟨e, he, hfst⟩ := List.mem_map.mp h
  have := List.of_mem_filter he
  simp [hfst] at this

theorem nodup_upsert {d : List (String × String)} (n c : String)
    (h : (namesD d).Nodup) : (namesD (upsert n c d)).Nodup := by
  unfold upsert
  have : namesD (eraseName n d ++ [(n, c)]) = namesD (eraseName n d) ++ [n] := by
    simp [namesD]
  rw [this]
  refine List.Nodup.append (nodup_eraseName n h) (List.nodup_singleton n) ?_
  intro a ha hb
  simp only [List.mem_singleton] at hb
  exact absurd (hb ▸ ha) (not_mem_namesD_eraseName n d)

/-! ## `copy_files` lemmas -/

theorem foldl_upsert_lookup_miss (m : String) : ∀ (ms d : List (String × String)),
    (∀ e ∈ ms, e.1 ≠ m) →
    lookupD (ms.foldl (fun d e => upsert e.1 e.2 d) d) m = lookupD d m := by
  intro ms
  induction ms with
  | nil => intro d _; rfl
  | cons e ms ih =>
    intro d h
    rw [List.foldl_cons, ih _ (fun x hx => h x (by simp [hx])), lookupD_upsert]
    have : ¬m = e.1 := fun hc => h e (by simp) hc.symm
    simp [this]

theorem foldl_upsert_lookup_hit (m v : String) : ∀ (ms d : List (String × String)),
    (∃ e ∈ ms, e.1 = m) → (∀ e ∈ ms, e.1 = m → e.2 = v) →
    lookupD (ms.foldl (fun d e => upsert e.1 e.2 d) d) m = some v := by
  intro ms
  induction ms with
  | nil => intro d h _; simp at h
  | cons e ms ih =>
    intro d hex hval
    rw [List.foldl_cons]
    by_cases hms : ∃ x ∈ ms, x.1 = m
    · exact ih _ hms (fun x hx => hval x (by simp [hx]))
    · have hem : e.1 = m := by
        obtain ⟨x, hx, hx1⟩ := hex
        rcases List.mem_cons.mp hx with rfl | hmem
        · exact hx1
        · exact absurd ⟨x, hmem, hx1⟩ hms
      have hnotail : ∀ x ∈ ms, x.1 ≠ m := by
        intro x hx hc
        exact hms ⟨x, hx, hc⟩
      rw [foldl_upsert_lookup_miss m ms _ hnotail, lookupD_upsert]
      simp [hem.symm, hval e (by simp) hem]

theorem copiedName_nil {src : List (String × String)} {m : String} :
    ¬CopiedName src [] m := by
  simp [CopiedName]

theorem copiedName_cons {src : List (String × String)} {p : String} {ps : List String}
    {m : String} :
    CopiedName src (p :: ps) m ↔
      (∃ e ∈ src, e.1 = m ∧ globMatch p e.1 = true) ∨ CopiedName src ps m := by
  constructor
  · rintro ⟨e, he, rfl, q, hq, hmq⟩
    rcases List.mem_cons.mp hq with rfl | hq'
    · exact Or.inl ⟨e, he, rfl, hmq⟩
    · exact Or.inr ⟨e, he, rfl, q, hq', hmq⟩
  · rintro (⟨e, he, rfl, hm⟩ | ⟨e, he, rfl, q, hq, hmq⟩)
    · exact ⟨e, he, rfl, p, by simp, hm⟩
    · exact ⟨e, he, rfl, q, by simp [hq], hmq⟩

theorem copy_files_src : ∀ (pats : List String) (b : Bool) (st st' : FS),
    copy_files pats b st = .ok st' → st'.src = st.src := by
  intro pats
  induction pats with
  | nil => intro b st st' h; cases h; rfl
  | cons p ps ih =>
    intro b st st' h
    unfold copy_files at h
    by_cases hms : (st.src.filter (fun e => globMatch p e.1)).isEmpty
    · rw [if_pos hms] at h
      cases b
      · cases h
      · exact ih true st st' h
    · rw [if_neg hms] at h
      have h2 := ih b _ st' h
      exact h2

theorem copy_files_total : ∀ (pats : List String) (st : FS),
    ∃ st', copy_files pats true st = .ok st' := by
  intro pats
  induction pats with
  | nil => intro st; exact ⟨st, rfl⟩
  | cons p ps ih =>
    intro st
    unfold copy_files
    by_cases hms : (st.src.filter (fun e => globMatch p e.1)).isEmpty
    · rw [if_pos hms]
      exact ih st
    · rw [if_neg hms]
      exact ih _

theorem copy_files_strict_fails : ∀ (pats : List String) (st : FS),
    (∃ p ∈ pats, ∀ e ∈ st.src, globMatch p e.1 = false) →
    ∃ q, (q ∈ pats ∧ ∀ e ∈ st.src, globMatch q e.1 = false) ∧
      copy_files pats false st = .error (.copyError q) := by
  intro pats
  induction pats with
  | nil => intro st h; simp at h
  | cons p ps ih =>
    intro st h
    unfold copy_files
    by_cases hms : (st.src.filter (fun e => globMatch p e.1)).isEmpty
    · rw [if_pos hms]
      refine ⟨p, ⟨by simp, ?_⟩, rfl⟩
      intro e he
      by_contra hc
      rw [List.isEmpty_iff] at hms
      have : e ∈ st.src.filter (fun e => globMatch p e.1) :=
        List.mem_filter.mpr ⟨he, by simpa using hc⟩
      rw [hms] at this
      cases this
    · rw [if_neg hms]
      have hps : ∃ q ∈ ps, ∀ e ∈ st.src, globMatch q e.1 = false := by
        obtain ⟨q, hq, hqf⟩ := h
        rcases List.mem_cons.mp hq with rfl | hq'
        · exfalso
          rw [List.isEmpty_iff] at hms
          push_neg at hms
          obtain ⟨e, he⟩ := List.exists_mem_of_ne_nil _ hms
          have := List.mem_filter.mp he
          rw [hqf e this.1] at this
          simp at this
        · exact ⟨q, hq', hqf⟩
      obtain ⟨q, ⟨hq, hqf⟩, hrun⟩ :=
        ih { st with
          dst := (st.src.filter (fun e => globMatch p e.1)).foldl
            (fun d e => upsert e.1 e.2 d) st.dst } (by exact hps)
      exact ⟨q, ⟨by simp [hq], hqf⟩, hrun⟩

theorem copy_files_lookup : ∀ (pats : List String) (b : Bool) (st st' : FS),
    (namesD st.src).Nodup → copy_files pats b st = .ok st' → ∀ m,
    lookupD st'.dst m =
      if CopiedName st.src pats m then lookupD st.src m else lookupD st.dst m := by
  intro pats
  induction pats with
  | nil =>
    intro b st st' _ h m
    cases h
    simp [copiedName_nil]
  | cons p ps ih =>
    intro b st st' hnd h m
    unfold copy_files at h
    by_cases hms : (st.src.filter (fun e => globMatch p e.1)).isEmpty
    · have hb : b = true := by
        cases b
        · rw [if_pos hms] at h; cases h
        · rfl
      subst hb
      rw [if_pos hms] at h
      rw [ih true st st' hnd h m]
      have hnp : ¬∃ e ∈ st.src, e.1 = m ∧ globMatch p e.1 = true := by
        rintro ⟨e, he, _, hme⟩
        rw [List.isEmpty_iff] at hms
        have : e ∈ st.src.filter (fun e => globMatch p e.1) :=
          List.mem_filter.mpr ⟨he, by simpa using hme⟩
        rw [hms] at this
        cases this
      by_cases hc : CopiedName st.src ps m
      · rw [if_pos hc, if_pos (copiedName_cons.mpr (Or.inr hc))]
      · rw [if_neg hc, if_neg (fun hcc => by
          rcases copiedName_cons.mp hcc with hl | hr
          · exact hnp hl
          · exact hc hr)]
    · rw [if_neg hms] at h
      have hsrc2 : ({ st with
          dst := (st.src.filter (fun e => globMatch p e.1)).foldl
            (fun d e => upsert e.1 e.2 d) st.dst } : FS).src = st.src := rfl
      rw [ih b _ st' (by rw [hsrc2]; exact hnd) h m]
      simp only [hsrc2]
      by_cases hc : CopiedName st.src ps m
      · rw [if_pos hc, if_pos (copiedName_cons.mpr (Or.inr hc))]
      · rw [if_neg hc]
        by_cases hp : ∃ e ∈ st.src, e.1 = m ∧ globMatch p e.1 = true
        · rw [if_pos (copiedName_cons.mpr (Or.inl hp))]
          obtain ⟨e, he, he1, hme⟩ := hp
          obtain ⟨cv, hcv⟩ : ∃ cv, lookupD st.src m = some cv := by
            have := lookupD_isSome_of_mem he
            rw [he1] at this
            cases hl : lookupD st.src m
            · exact absurd hl this
            · exact ⟨_, rfl⟩
          rw [hcv]
          apply foldl_upsert_lookup_hit
          · exact ⟨e, List.mem_filter.mpr ⟨he, by simpa using hme⟩, he1⟩
          · intro x hx hx1
            have hxsrc := List.mem_filter.mp hx
            have : lookupD st.src m = some x.2 := by
              have : (m, x.2) ∈ st.src := by
                have : (x.1, x.2) ∈ st.src := hxsrc.1
                rwa [hx1] at this
              exact lookupD_eq_some_of_mem_nodup hnd this
            rw [hcv] at this
            exact (Option.some.inj this).symm
        · rw [if_neg (fun hcc => by
            rcases copiedName_cons.mp hcc with hl | hr
            · exact hp hl
            · exact hc hr)]
          apply foldl_upsert_lookup_miss
          intro x hx hc1
          have hxf := List.mem_filter.mp hx
          exact hp ⟨x, hxf.1, hc1, by simpa using hxf.2⟩

theorem copy_files_nodup_dst : ∀ (pats : List String) (b : Bool) (st st' : FS),
    (namesD st.dst).Nodup → copy_files pats b st = .ok st' →
    (namesD st'.dst).Nodup := by
  intro pats
  have hfold : ∀ (ms d : List (String × String)), (namesD d).Nodup →
      (namesD (ms.foldl (fun d e => upsert e.1 e.2 d) d)).Nodup := by
    intro ms
    induction ms with
    | nil => intro d h; exact h
    | cons e ms ih => intro d h; exact ih _ (nodup_upsert _ _ h)
  induction pats with
  | nil => intro b st st' h hr; cases hr; exact h
  | cons p ps ih =>
    intro b st st' h hr
    unfold copy_files at hr
    by_cases hms : (st.src.filter (fun e => globMatch p e.1)).isEmpty
    · rw [if_pos hms] at hr
      cases b
      · cases hr
      · exact ih true st st' h hr
    · rw [if_neg hms] at hr
      exact ih b _ st' (hfold _ _ h) hr

/-! ## `rename_files` and `gunzip_files` basics -/

theorem rename_files_src : ∀ (pairs : List (String × String)) (b : Bool) (st st' : FS),
    rename_files pairs b st = .ok st' → st'.src = st.src := by
  intro pairs
  induction pairs with
  | nil => intro b st st' h; cases h; rfl
  | cons kv rest ih =>
    intro b st st' h
    unfold rename_files at h
    cases hl : lookupD st.dst kv.1 with
    | some c =>
      rw [hl] at h
      have h2 := ih b _ st' h
      exact h2
    | none =>
      rw [hl] at h
      cases b
      · cases h
      · exact ih true st st' h

theorem rename_files_total : ∀ (pairs : List (String × String)) (st : FS),
    ∃ st', rename_files pairs true st = .ok st' := by
  intro pairs
  induction pairs with
  | nil => intro st; exact ⟨st, rfl⟩
  | cons kv rest ih =>
    intro st
    unfold rename_files
    cases hl : lookupD st.dst kv.1 with
    | some c => exact ih _
    | none => exact ih st

theorem rename_files_error_shape : ∀ (pairs : List (String × String)) (b : Bool)
    (st : FS) (e : VErr), rename_files pairs b st = .error e →
    ∃ k, e = .renameError k := by
  intro pairs
  induction pairs with
  | nil => intro b st e h; cases h
  | cons kv rest ih =>
    intro b st e h
    unfold rename_files at h
    cases hl : lookupD st.dst kv.1 with
    | some c =>
      rw [hl] at h
      exact ih b _ e h
    | none =>
      rw [hl] at h
      cases b
      · cases h
        exact ⟨kv.1, rfl⟩
      · exact ih true st e h

theorem gunzip_files_src (pats : List String) (st : FS) :
    (gunzip_files pats st).src = st.src := rfl

/-! ## Pipeline unfolding -/

theorem copy_vasp_outputs_parse_error {additional : List String} {contcar : Bool}
    {st : FS} (hext : get_largest_relax_extension (st.src.map (fun e => e.1)) =
      .error .parseError) :
    copy_vasp_outputs additional contcar st = .error .parseError := by
  unfold copy_vasp_outputs
  rw [hext]
  rfl

theorem copy_vasp_outputs_req_error {additional : List String} {contcar : Bool}
    {st : FS} {ext : String} {e : VErr}
    (hext : get_largest_relax_extension (st.src.map (fun e => e.1)) = .ok ext)
    (h1 : copy_files (mkPatterns (requiredBase additional) ext) false st = .error e) :
    copy_vasp_outputs additional contcar st = .error e := by
  unfold copy_vasp_outputs
  rw [hext]
  show (copy_files (mkPatterns (requiredBase additional) ext) false st).bind _ = _
  rw [h1]
  rfl

theorem copy_vasp_outputs_eq {additional : List String} {contcar : Bool}
    {st st1 st2 : FS} {ext : String}
    (hext : get_largest_relax_extension (st.src.map (fun e => e.1)) = .ok ext)
    (h1 : copy_files (mkPatterns (requiredBase additional) ext) false st = .ok st1)
    (h2 : copy_files (mkPatterns optionalBase ext) true st1 = .ok st2) :
    copy_vasp_outputs additional contcar st =
      finish_copy ext (mkPatterns (requiredBase additional) ext)
        (mkPatterns optionalBase ext) contcar st2 := by
  unfold copy_vasp_outputs
  rw [hext]
  show (copy_files (mkPatterns (requiredBase additional) ext) false st).bind _ = _
  rw [h1]
  show (copy_files (mkPatterns optionalBase ext) true st1).bind _ = _
  rw [h2]
  rfl

theorem copy_vasp_outputs_ok_inversion {additional : List String} {contcar : Bool}
    {st st' : FS} (h : copy_vasp_outputs additional contcar st = .ok st') :
    ∃ ext st1 st2,
      get_largest_relax_extension (st.src.map (fun e => e.1)) = .ok ext ∧
      copy_files (mkPatterns (requiredBase additional) ext) false st = .ok st1 ∧
      copy_files (mkPatterns optionalBase ext) true st1 = .ok st2 ∧
      finish_copy ext (mkPatterns (requiredBase additional) ext)
        (mkPatterns optionalBase ext) contcar st2 = .ok st' := by
  unfold copy_vasp_outputs at h
  cases hext : get_largest_relax_extension (st.src.map (fun e => e.1)) with
  | error e => rw [hext] at h; cases h
  | ok ext =>
    rw [hext] at h
    replace h : (copy_files (mkPatterns (requiredBase additional) ext) false st).bind _ = .ok st' := h
    cases h1 : copy_files (mkPatterns (requiredBase additional) ext) false st with
    | error e => rw [h1] at h; cases h
    | ok st1 =>
      rw [h1] at h
      replace h : (copy_files (mkPatterns optionalBase ext) true st1).bind _ = .ok st' := h
      cases h2 : copy_files (mkPatterns optionalBase ext) true st1 with
      | error e => rw [h2] at h; cases h
      | ok st2 =>
        rw [h2] at h
        exact ⟨ext, st1, st2, rfl, h1, h2, h⟩

theorem finish_copy_src {ext : String} {req opt : List String} {contcar : Bool}
    {st st' : FS} (h : finish_copy ext req opt contcar st = .ok st') :
    st'.src = st.src := by
  unfold finish_copy at h
  by_cases hp : potcarAbsent st
  · rw [if_pos hp] at h; cases h
  · rw [if_neg hp] at h
    cases hrel : (if ext ≠ "" then
        rename_files (relaxRenameMap ext (opt ++ req)) true (gunzip_files (req ++ opt) st)
      else .ok (gunzip_files (req ++ opt) st)) with
    | error e => rw [hrel] at h; cases h
    | ok st3 =>
      rw [hrel] at h
      have h3 : st3.src = st.src := by
        by_cases he : ext ≠ ""
        · rw [if_pos he] at hrel
          rw [rename_files_src _ _ _ _ hrel, gunzip_files_src]
        · rw [if_neg he] at hrel
          cases hrel
          rw [gunzip_files_src]
      by_cases hc : contcar
      · simp only [hc, if_true, Except.bind] at h
        rw [rename_files_src _ _ _ _ h, h3]
      · simp only [hc, if_false, Except.bind] at h
        cases h
        exact h3

/-! ## Claims C3, C4, C7, C9, C10 -/

/-- C3: whenever, after the optional-file copy phase, no destination
file matches `POTCAR*`, the operation raises the missing-POTCAR error,
which is distinct from the generic copy failure. -/
theorem copy_vasp_missing_potcar (additional : List String) (contcar : Bool)
    (st st1 st2 : FS) (ext : String)
    (hext : get_largest_relax_extension (st.src.map (fun e => e.1)) = .ok ext)
    (h1 : copy_files (mkPatterns (requiredBase additional) ext) false st = .ok st1)
    (h2 : copy_files (mkPatterns optionalBase ext) true st1 = .ok st2)
    (hp : potcarAbsent st2 = true) :
    copy_vasp_outputs additional contcar st = .error .missingPotcar ∧
      ∀ p, VErr.missingPotcar ≠ VErr.copyError p := by
  refine ⟨?_, fun p h => by cases h⟩
  rw [copy_vasp_outputs_eq hext h1 h2]
  unfold finish_copy
  rw [if_pos hp]

/-- C3 witness: a source with all required files but neither `POTCAR`
nor `POTCAR.spec` raises the missing-POTCAR error. -/
theorem copy_vasp_missing_potcar_witness :
    (get_largest_relax_extension
        ([("INCAR", "i"), ("OUTCAR", "o"), ("CONTCAR", "c"), ("vasprun.xml", "v")].map
          (fun e => e.1)) = .ok "" ∧
      copy_files (mkPatterns (requiredBase []) "") false
          ⟨[("INCAR", "i"), ("OUTCAR", "o"), ("CONTCAR", "c"), ("vasprun.xml", "v")], []⟩ =
        .ok ⟨[("INCAR", "i"), ("OUTCAR", "o"), ("CONTCAR", "c"), ("vasprun.xml", "v")],
          [("INCAR", "i"), ("OUTCAR", "o"), ("CONTCAR", "c"), ("vasprun.xml", "v")]⟩) ∧
      copy_vasp_outputs [] true
          ⟨[("INCAR", "i"), ("OUTCAR", "o"), ("CONTCAR", "c"), ("vasprun.xml", "v")], []⟩ =
        .error .missingPotcar ∧
      ∀ p, VErr.missingPotcar ≠ VErr.copyError p :=
  ⟨⟨by decide, by decide⟩,
    copy_vasp_missing_potcar [] true _
      ⟨[("INCAR", "i"), ("OUTCAR", "o"), ("CONTCAR", "c"), ("vasprun.xml", "v")],
        [("INCAR", "i"), ("OUTCAR", "o"), ("CONTCAR", "c"), ("vasprun.xml", "v")]⟩
      ⟨[("INCAR", "i"), ("OUTCAR", "o"), ("CONTCAR", "c"), ("vasprun.xml", "v")],
        [("INCAR", "i"), ("OUTCAR", "o"), ("CONTCAR", "c"), ("vasprun.xml", "v")]⟩
      "" (by decide) (by decide) (by decide) (by decide)⟩

/-- C4: a required pattern with zero matches on the source makes the
whole operation fail with a copy error, while the lenient optional copy
phase (used for POTCAR, POTCAR.spec, KPOINTS) never raises, whatever is
absent. -/
theorem copy_required_strict_optional_lenient (additional : List String) (contcar : Bool)
    (st : FS) (ext : String)
    (hext : get_largest_relax_extension (st.src.map (fun e => e.1)) = .ok ext)
    (hmiss : ∃ p ∈ mkPatterns (requiredBase additional) ext,
      ∀ e ∈ st.src, globMatch p e.1 = false) :
    (∃ q, copy_vasp_outputs additional contcar st = .error (.copyError q)) ∧
      ∀ (pats : List String) (st₀ : FS), ∃ st₁, copy_files pats true st₀ = .ok st₁ := by
  constructor
  · obtain ⟨q, ⟨_, _⟩, herr⟩ := copy_files_strict_fails _ st hmiss
    exact ⟨q, copy_vasp_outputs_req_error hext herr⟩
  · exact copy_files_total

/-- C4 witness: a source missing `OUTCAR` fails with a copy error (and
note the same source also lacks `KPOINTS`, which alone never aborts). -/
theorem copy_required_strict_optional_lenient_witness :
    (get_largest_relax_extension
        ([("INCAR", "i"), ("CONTCAR", "c"), ("vasprun.xml", "v"), ("POTCAR", "p")].map
          (fun e => e.1)) = .ok "" ∧
      "OUTCAR*" ∈ mkPatterns (requiredBase []) "" ∧
      ∀ e ∈ ([("INCAR", "i"), ("CONTCAR", "c"), ("vasprun.xml", "v"), ("POTCAR", "p")] :
        List (String × String)), globMatch "OUTCAR*" e.1 = false) ∧
      (∃ q, copy_vasp_outputs [] true
          ⟨[("INCAR", "i"), ("CONTCAR", "c"), ("vasprun.xml", "v"), ("POTCAR", "p")], []⟩ =
        .error (.copyError q)) ∧
      ∀ (pats : List String) (st₀ : FS), ∃ st₁, copy_files pats true st₀ = .ok st₁ :=
  ⟨⟨by decide, by decide, by decide⟩,
    copy_required_strict_optional_lenient [] true _ ""
      (by decide) ⟨"OUTCAR*", by decide, by decide⟩⟩

/-- C7: no operation of the copier mutates the source directory: the
copy, gunzip and rename collaborators and the whole of
`copy_vasp_outputs` leave the source component of the state unchanged
whenever they produce a state at all. -/
theorem source_never_mutated :
    (∀ (pats : List String) (b : Bool) (st st' : FS),
      copy_files pats b st = .ok st' → st'.src = st.src) ∧
    (∀ (pats : List String) (st : FS), (gunzip_files pats st).src = st.src) ∧
    (∀ (pairs : List (String × String)) (b : Bool) (st st' : FS),
      rename_files pairs b st = .ok st' → st'.src = st.src) ∧
    (∀ (additional : List String) (contcar : Bool) (st st' : FS),
      copy_vasp_outputs additional contcar st = .ok st' → st'.src = st.src) := by
  refine ⟨copy_files_src, gunzip_files_src, rename_files_src, ?_⟩
  intro additional contcar st st' h
  obtain ⟨ext, st1, st2, hext, h1, h2, hf⟩ := copy_vasp_outputs_ok_inversion h
  rw [finish_copy_src hf, copy_files_src _ _ _ _ h2, copy_files_src _ _ _ _ h1]

/-- C7 witness: a concrete successful run leaves the source exactly as
it was. -/
theorem source_never_mutated_witness :
    copy_vasp_outputs [] true
        ⟨[("INCAR", "i"), ("OUTCAR", "o"), ("CONTCAR", "c"), ("vasprun.xml", "v"),
          ("POTCAR", "p")], []⟩ =
      .ok ⟨[("INCAR", "i"), ("OUTCAR", "o"), ("CONTCAR", "c"), ("vasprun.xml", "v"),
          ("POTCAR", "p")],
        [("INCAR", "i"), ("OUTCAR", "o"), ("vasprun.xml", "v"), ("POTCAR", "p"),
          ("POSCAR", "c")]⟩ ∧
      (FS.mk
        [("INCAR", "i"), ("OUTCAR", "o"), ("CONTCAR", "c"), ("vasprun.xml", "v"),
          ("POTCAR", "p")]
        [("INCAR", "i"), ("OUTCAR", "o"), ("vasprun.xml", "v"), ("POTCAR", "p"),
          ("POSCAR", "c")]).src =
      (FS.mk
        [("INCAR", "i"), ("OUTCAR", "o"), ("CONTCAR", "c"), ("vasprun.xml", "v"),
          ("POTCAR", "p")] []).src :=
  ⟨by decide, source_never_mutated.2.2.2 [] true _ _ (by decide)⟩

/-- C9: the missing-POTCAR check accepts any destination file whose
name matches `POTCAR*`; when one is present after the optional copy the
missing-POTCAR error is never raised (the remaining phases can only
fail with rename errors). -/
theorem potcar_check_accepts_prefix (additional : List String) (contcar : Bool)
    (st st1 st2 : FS) (ext : String)
    (hext : get_largest_relax_extension (st.src.map (fun e => e.1)) = .ok ext)
    (h1 : copy_files (mkPatterns (requiredBase additional) ext) false st = .ok st1)
    (h2 : copy_files (mkPatterns optionalBase ext) true st1 = .ok st2)
    (hp : potcarAbsent st2 = false) :
    copy_vasp_outputs additional contcar st ≠ .error .missingPotcar := by
  rw [copy_vasp_outputs_eq hext h1 h2]
  unfold finish_copy
  simp only [hp, Bool.false_eq_true, if_false]
  cases hrel : (if ext ≠ "" then
      rename_files (relaxRenameMap ext
        (mkPatterns optionalBase ext ++ mkPatterns (requiredBase additional) ext)) true
        (gunzip_files (mkPatterns (requiredBase additional) ext ++
          mkPatterns optionalBase ext) st2)
    else .ok (gunzip_files (mkPatterns (requiredBase additional) ext ++
      mkPatterns optionalBase ext) st2)) with
  | error e =>
    have hshape : ∃ k, e = .renameError k := by
      by_cases he : ext ≠ ""
      · rw [if_pos he] at hrel
        exact rename_files_error_shape _ _ _ _ hrel
      · rw [if_neg he] at hrel
        cases hrel
    obtain ⟨k, rfl⟩ := hshape
    intro hc
    cases hc
  | ok st3 =>
    show (Except.ok st3).bind _ ≠ _
    by_cases hc : contcar
    · simp only [hc, if_true]
      show (if True then rename_files [("CONTCAR", "POSCAR")] false st3 else .ok st3) ≠ _
      rw [if_pos trivial]
      cases hren : rename_files [("CONTCAR", "POSCAR")] false st3 with
      | error e =>
        obtain ⟨k, rfl⟩ := rename_files_error_shape _ _ _ _ hren
        intro hcc; cases hcc
      | ok s => intro hcc; cases hcc
    · simp only [hc]
      intro hcc
      simp [Except.bind] at hcc

/-- C9 witness: a destination holding only `POTCAR.spec` (no file named
exactly `POTCAR`) passes the check; the run does not raise the
missing-POTCAR error. -/
theorem potcar_check_accepts_prefix_witness :
    (potcarAbsent
        ⟨[("INCAR", "i"), ("OUTCAR", "o"), ("CONTCAR", "c"), ("vasprun.xml", "v"),
          ("POTCAR.spec", "p")],
        [("INCAR", "i"), ("OUTCAR", "o"), ("CONTCAR", "c"), ("vasprun.xml", "v"),
          ("POTCAR.spec", "p")]⟩ = false) ∧
      copy_vasp_outputs [] true
          ⟨[("INCAR", "i"), ("OUTCAR", "o"), ("CONTCAR", "c"), ("vasprun.xml", "v"),
            ("POTCAR.spec", "p")], []⟩ ≠
        .error .missingPotcar :=
  ⟨by decide,
    potcar_check_accepts_prefix [] true _
      ⟨[("INCAR", "i"), ("OUTCAR", "o"), ("CONTCAR", "c"), ("vasprun.xml", "v"),
        ("POTCAR.spec", "p")],
       [("INCAR", "i"), ("OUTCAR", "o"), ("CONTCAR", "c"), ("vasprun.xml", "v")]⟩
      ⟨[("INCAR", "i"), ("OUTCAR", "o"), ("CONTCAR", "c"), ("vasprun.xml", "v"),
        ("POTCAR.spec", "p")],
       [("INCAR", "i"), ("OUTCAR", "o"), ("CONTCAR", "c"), ("vasprun.xml", "v"),
        ("POTCAR.spec", "p")]⟩
      "" (by decide) (by decide) (by decide) (by decide)⟩

/-- C10: the final CONTCAR → POSCAR rename is strict: if at that point
no destination file is named exactly `CONTCAR`, the rename — and hence
the whole operation — fails with a rename error (unlike the lenient
relax-stripping renames). -/
theorem contcar_rename_strict (additional : List String)
    (st st1 st2 st3 : FS) (ext : String)
    (hext : get_largest_relax_extension (st.src.map (fun e => e.1)) = .ok ext)
    (h1 : copy_files (mkPatterns (requiredBase additional) ext) false st = .ok st1)
    (h2 : copy_files (mkPatterns optionalBase ext) true st1 = .ok st2)
    (hp : potcarAbsent st2 = false)
    (hrel : (if ext ≠ "" then
        rename_files (relaxRenameMap ext
          (mkPatterns optionalBase ext ++ mkPatterns (requiredBase additional) ext)) true
          (gunzip_files (mkPatterns (requiredBase additional) ext ++
            mkPatterns optionalBase ext) st2)
      else .ok (gunzip_files (mkPatterns (requiredBase additional) ext ++
        mkPatterns optionalBase ext) st2)) = .ok st3)
    (hc : lookupD st3.dst "CONTCAR" = none) :
    copy_vasp_outputs additional true st = .error (.renameError "CONTCAR") := by
  rw [copy_vasp_outputs_eq hext h1 h2]
  unfold finish_copy
  simp only [hp, Bool.false_eq_true, if_false]
  rw [hrel]
  show rename_files [("CONTCAR", "POSCAR")] false st3 = _
  unfold rename_files
  rw [show lookupD st3.dst ("CONTCAR", "POSCAR").1 = none from hc]
  rfl

/-- C10 witness: copying a source whose `CONTCAR*` match is the oddly
named `CONTCARX` leaves no file named exactly `CONTCAR`, so the final
strict rename aborts the run. -/
theorem contcar_rename_strict_witness :
    (lookupD
        [("INCAR", "i"), ("OUTCAR", "o"), ("CONTCARX", "c"), ("vasprun.xml", "v"),
          ("POTCAR", "p")] "CONTCAR" = none) ∧
      copy_vasp_outputs [] true
          ⟨[("INCAR", "i"), ("OUTCAR", "o"), ("CONTCARX", "c"), ("vasprun.xml", "v"),
            ("POTCAR", "p")], []⟩ =
        .error (.renameError "CONTCAR") :=
  ⟨by decide,
    contcar_rename_strict [] _
      ⟨[("INCAR", "i"), ("OUTCAR", "o"), ("CONTCARX", "c"), ("vasprun.xml", "v"),
        ("POTCAR", "p")],
       [("INCAR", "i"), ("OUTCAR", "o"), ("CONTCARX", "c"), ("vasprun.xml", "v")]⟩
      ⟨[("INCAR", "i"), ("OUTCAR", "o"), ("CONTCARX", "c"), ("vasprun.xml", "v"),
        ("POTCAR", "p")],
       [("INCAR", "i"), ("OUTCAR", "o"), ("CONTCARX", "c"), ("vasprun.xml", "v"),
        ("POTCAR", "p")]⟩
      ⟨[("INCAR", "i"), ("OUTCAR", "o"), ("CONTCARX", "c"), ("vasprun.xml", "v"),
        ("POTCAR", "p")],
       [("INCAR", "i"), ("OUTCAR", "o"), ("CONTCARX", "c"), ("vasprun.xml", "v"),
        ("POTCAR", "p")]⟩
      "" (by decide) (by decide) (by decide) (by decide) (by decide) (by decide)⟩

/-! ## Claims C6 and C8: counterexamples -/

/-- C6 counterexample: a successful run with `contcar_to_poscar = true`
whose destination still contains a relax-suffixed name.  The stray
source file `vasprun.xml.relax2.bak` is matched by the required pattern
`vasprun.xml.relax2*` and copied, but the suffix-stripping rename only
targets the exact name `vasprun.xml.relax2`, so the `.bak` file keeps
its relax suffix in the destination. -/
theorem contcar_poscar_leftover_relax :
    copy_vasp_outputs [] true
        ⟨[("INCAR.relax2", "i"), ("OUTCAR.relax2", "o"), ("CONTCAR.relax2", "c"),
          ("vasprun.xml.relax2", "v"), ("POTCAR.relax2", "p"),
          ("vasprun.xml.relax2.bak", "junk")], []⟩ =
      .ok ⟨[("INCAR.relax2", "i"), ("OUTCAR.relax2", "o"), ("CONTCAR.relax2", "c"),
          ("vasprun.xml.relax2", "v"), ("POTCAR.relax2", "p"),
          ("vasprun.xml.relax2.bak", "junk")],
        [("vasprun.xml.relax2.bak", "junk"), ("POTCAR", "p"), ("INCAR", "i"),
          ("OUTCAR", "o"), ("vasprun.xml", "v"), ("POSCAR", "c")]⟩ ∧
      (([("vasprun.xml.relax2.bak", "junk"), ("POTCAR", "p"), ("INCAR", "i"),
          ("OUTCAR", "o"), ("vasprun.xml", "v"), ("POSCAR", "c")] :
        List (String × String)).any (fun e => globMatch "*.relax*" e.1)) = true := by
  constructor
  · decide
  · decide

/-- C8 counterexample: the copier is not idempotent.  With a
doubly-compressed source file `INCAR.gz.gz` (matched by the required
pattern `INCAR*`), the first run gunzips it once and ends with
`INCAR.gz` in the destination and no `INCAR`; the second run copies
`INCAR.gz.gz` again and now also gunzips the leftover `INCAR.gz`, so
the destination additionally gains `INCAR` — the two final file sets
differ. -/
theorem copy_vasp_not_idempotent :
    copy_vasp_outputs [] true
        ⟨[("INCAR.gz.gz", "i"), ("OUTCAR", "o"), ("CONTCAR", "c"), ("vasprun.xml", "v"),
          ("POTCAR", "p")], []⟩ =
      .ok ⟨[("INCAR.gz.gz", "i"), ("OUTCAR", "o"), ("CONTCAR", "c"), ("vasprun.xml", "v"),
          ("POTCAR", "p")],
        [("OUTCAR", "o"), ("vasprun.xml", "v"), ("POTCAR", "p"), ("INCAR.gz", "i"),
          ("POSCAR", "c")]⟩ ∧
      copy_vasp_outputs [] true
        ⟨[("INCAR.gz.gz", "i"), ("OUTCAR", "o"), ("CONTCAR", "c"), ("vasprun.xml", "v"),
          ("POTCAR", "p")],
        [("OUTCAR", "o"), ("vasprun.xml", "v"), ("POTCAR", "p"), ("INCAR.gz", "i"),
          ("POSCAR", "c")]⟩ =
      .ok ⟨[("INCAR.gz.gz", "i"), ("OUTCAR", "o"), ("CONTCAR", "c"), ("vasprun.xml", "v"),
          ("POTCAR", "p")],
        [("OUTCAR", "o"), ("vasprun.xml", "v"), ("POTCAR", "p"), ("INCAR", "i"),
          ("INCAR.gz", "i"), ("POSCAR", "c")]⟩ ∧
      lookupD [("OUTCAR", "o"), ("vasprun.xml", "v"), ("POTCAR", "p"), ("INCAR.gz", "i"),
          ("POSCAR", "c")] "INCAR" = none ∧
      lookupD [("OUTCAR", "o"), ("vasprun.xml", "v"), ("POTCAR", "p"), ("INCAR", "i"),
          ("INCAR.gz", "i"), ("POSCAR", "c")] "INCAR" = some "i" := by
  refine ⟨by decide, by decide, by decide, by decide⟩

/-! ## Glob, suffix and extension-shape lemmas -/

theorem string_eta (s : String) : (⟨s.data⟩ : String) = s := by cases s; rfl

theorem string_data_inj {s t : String} (h : s.data = t.data) : s = t := by
  cases s; cases t; exact congrArg String.mk h

theorem gmatch_append_star_of_prefix : ∀ (p : List Char), (∀ c ∈ p, c ≠ '*') →
    ∀ (t : List Char), gmatch (p ++ ['*']) (p ++ t) = true := by
  intro p
  induction p with
  | nil =>
    intro _ t
    show gmatch ['*'] t = true
    unfold gmatch
    rw [if_pos rfl]
    rw [List.any_eq_true]
    refine ⟨t.length, List.mem_range.mpr (by omega), ?_⟩
    rw [List.drop_length]
    rfl
  | cons c p ih =>
    intro hp t
    show gmatch (c :: (p ++ ['*'])) (c :: (p ++ t)) = true
    unfold gmatch
    rw [if_neg (hp c (by simp))]
    simp [ih (fun x hx => hp x (by simp [hx])) t]

theorem globMatch_base_pattern (b ext : String) (hb : ∀ c ∈ b.data, c ≠ '*')
    (he : ∀ c ∈ ext.data, c ≠ '*') (t : String) :
    globMatch (b ++ ext ++ "*") (b ++ ext ++ t) = true := by
  unfold globMatch
  have h1 : (b ++ ext ++ "*").data = (b.data ++ ext.data) ++ ['*'] := by
    simp [String.data_append]
  have h2 : (b ++ ext ++ t).data = (b.data ++ ext.data) ++ t.data := by
    simp [String.data_append]
  rw [h1, h2]
  apply gmatch_append_star_of_prefix
  intro x hx
  rcases List.mem_append.mp hx with h | h
  · exact hb x h
  · exact he x h

theorem globMatch_relax_of_infix (n : String) (a b : List Char)
    (h : n.data = a ++ (".relax").data ++ b) :
    globMatch "*.relax*" n = true := by
  unfold globMatch
  have hpat : ("*.relax*").data = '*' :: ((".relax").data ++ ['*']) := rfl
  rw [hpat]
  show gmatch ('*' :: ((".relax").data ++ ['*'])) n.data = true
  unfold gmatch
  rw [if_pos rfl, List.any_eq_true]
  refine ⟨a.length, List.mem_range.mpr ?_, ?_⟩
  · have : n.data.length = a.length + ((".relax").data ++ b).length := by
      rw [h]; simp
    omega
  · have hdrop : n.data.drop a.length = (".relax").data ++ b := by
      rw [h, List.append_assoc, List.drop_left]
    rw [hdrop]
    exact gmatch_append_star_of_prefix (".relax").data (by decide) b

theorem endsGz_append_gz (m : List Char) : endsGz ⟨m ++ ['.', 'g', 'z']⟩ = true := by
  unfold endsGz
  have hlen : (m ++ ['.', 'g', 'z']).length - 3 = m.length := by simp
  rw [show ((⟨m ++ ['.', 'g', 'z']⟩ : String)).data = m ++ ['.', 'g', 'z'] from rfl]
  rw [hlen, List.drop_left]
  simp

theorem endsGz_data {n : String} (h : endsGz n = true) :
    n.data = n.data.take (n.data.length - 3) ++ ['.', 'g', 'z'] := by
  unfold endsGz at h
  rw [decide_eq_true_eq] at h
  conv_lhs => rw [← List.take_append_drop (n.data.length - 3) n.data]
  rw [h]

theorem stripGz_append_gz (m : List Char) : stripGz ⟨m ++ ['.', 'g', 'z']⟩ = ⟨m⟩ := by
  unfold stripGz
  have hlen : (m ++ ['.', 'g', 'z']).length - 3 = m.length := by simp
  rw [show ((⟨m ++ ['.', 'g', 'z']⟩ : String)).data = m ++ ['.', 'g', 'z'] from rfl]
  rw [hlen, List.take_left]

theorem append_stripGz_of_endsGz {n : String} (h : endsGz n = true) :
    n = stripGz n ++ ".gz" := by
  apply string_data_inj
  rw [String.data_append]
  show n.data = n.data.take (n.data.length - 3) ++ ['.', 'g', 'z']
  exact endsGz_data h

theorem endsGz_false_of_getLast {n : String} (h : n.data.getLast? ≠ some 'z') :
    endsGz n = false := by
  by_contra hc
  rw [Bool.not_eq_false] at hc
  have hd := endsGz_data hc
  apply h
  rw [hd]
  rw [show n.data.take (n.data.length - 3) ++ ['.', 'g', 'z'] =
    (n.data.take (n.data.length - 3) ++ ['.', 'g']) ++ ['z'] from by simp]
  exact List.getLast?_concat _

theorem getLast?_append_string (b ext : String) (h : ext.data ≠ []) :
    (b ++ ext).data.getLast? = ext.data.getLast? := by
  rw [String.data_append]
  exact List.getLast?_append_of_ne_nil _ h

theorem getLast?_mem_of_ne_nil (l : List Char) (h : l ≠ []) :
    ∃ c, l.getLast? = some c ∧ c ∈ l :=
  ⟨l.getLast h, List.getLast?_eq_getLast l h, List.getLast_mem h⟩

/-- The shape of a successfully resolved relax extension: empty, or
`".relax"` followed by a non-empty digit string. -/
theorem resolver_ok_shape {l : List String} {ext : String}
    (h : get_largest_relax_extension l = .ok ext) :
    ext = "" ∨ ∃ ds : List Char, ds ≠ [] ∧ (∀ c ∈ ds, c.isDigit = true) ∧
      ext = ".relax" ++ (⟨ds⟩ : String) := by
  unfold get_largest_relax_extension at h
  cases hF : l.filter (fun f => globMatch "*.relax*" f) with
  | nil =>
    rw [hF] at h
    simp at h
    exact Or.inl h.symm
  | cons x xs =>
    rw [hF] at h
    simp only [List.isEmpty_cons, Bool.false_eq_true, if_false] at h
    cases hmap : mapOpt findRelaxNumS (x :: xs) with
    | none => rw [hmap] at h; cases h
    | some numbers =>
      rw [hmap] at h
      cases numbers with
      | nil => cases mapOpt_forall₂ hmap
      | cons n ns =>
        simp only [Except.ok.injEq] at h
        obtain ⟨f, _, hfr⟩ := forall₂_mem_right (mapOpt_forall₂ hmap) _ (maxByInt_mem n ns)
        have hshape := findRelaxNumS_shape hfr
        refine Or.inr ⟨(maxByInt n ns).data, hshape.1, hshape.2, ?_⟩
        rw [string_eta]
        exact h.symm

theorem digit_ne_star {c : Char} (h : c.isDigit = true) : c ≠ '*' := by
  intro hc
  have := isDigit_toNat h
  rw [hc] at this
  revert this
  decide

theorem digit_ne_z {c : Char} (h : c.isDigit = true) : c ≠ 'z' := by
  intro hc
  have := isDigit_toNat h
  rw [hc] at this
  revert this
  decide

/-- Canonical facts about a resolved extension. -/
theorem ext_facts {ext : String}
    (HE : ext = "" ∨ ∃ ds : List Char, ds ≠ [] ∧ (∀ c ∈ ds, c.isDigit = true) ∧
      ext = ".relax" ++ (⟨ds⟩ : String)) :
    (∀ c ∈ ext.data, c ≠ '*') ∧
      (ext ≠ "" → ext.data ≠ [] ∧ ext.data.getLast? ≠ some 'z' ∧
        ∀ b : String, globMatch "*.relax*" (b ++ ext) = true) := by
  rcases HE with rfl | ⟨ds, hne, hdig, rfl⟩
  · exact ⟨by simp, fun hc => absurd rfl hc⟩
  · constructor
    · intro c hc
      rw [String.data_append] at hc
      rcases List.mem_append.mp hc with h | h
      · fin_cases h <;> decide
      · exact digit_ne_star (hdig c h)
    · intro _
      have hdata : (".relax" ++ (⟨ds⟩ : String)).data = (".relax").data ++ ds := by
        rw [String.data_append]
      refine ⟨by rw [hdata]; simp, ?_, ?_⟩
      · rw [hdata, List.getLast?_append_of_ne_nil _ hne]
        obtain ⟨c, hc, hmem⟩ := getLast?_mem_of_ne_nil ds hne
        rw [hc]
        intro hcontra
        have : c = 'z' := by injection hcontra
        exact digit_ne_z (hdig c hmem) this
      · intro b
        apply globMatch_relax_of_infix _ b.data ds
        rw [String.data_append, hdata, List.append_assoc]

/-! ## `replace` lemmas and the relax rename map -/

theorem replAllF_nil (pat : List Char) (fuel : Nat) : replAllF pat fuel [] = [] := by
  cases fuel <;> rfl

theorem isPrefixOf_self (l : List Char) : l.isPrefixOf l = true :=
  List.isPrefixOf_iff_prefix.mpr ⟨[], by simp⟩

theorem replAllF_star : ∀ (m : List Char) (fuel : Nat), (∀ c ∈ m, c ≠ '*') →
    m.length + 1 ≤ fuel → replAllF ['*'] fuel (m ++ ['*']) = m := by
  intro m
  induction m with
  | nil =>
    intro fuel _ hf
    cases fuel with
    | zero => omega
    | succ f =>
      show replAllF ['*'] f [] = []
      exact replAllF_nil _ _
  | cons c m ih =>
    intro fuel hm hf
    cases fuel with
    | zero => omega
    | succ f =>
      show (if (['*'] : List Char) ≠ [] ∧ ['*'].isPrefixOf (c :: (m ++ ['*'])) = true then
          replAllF ['*'] f (List.drop (['*'].length - 1) (m ++ ['*']))
        else c :: replAllF ['*'] f (m ++ ['*'])) = c :: m
      rw [if_neg ?_]
      · rw [ih f (fun x hx => hm x (by simp [hx])) (by simp at hf; omega)]
      · rintro ⟨-, hpre⟩
        obtain ⟨t, ht⟩ := List.isPrefixOf_iff_prefix.mp hpre
        have : c = '*' := by
          have := congrArg (fun l => l.head?) ht
          simpa using this.symm
        exact hm c (by simp) this

theorem not_prefix_mid (b ext : List Char) (hb : ∀ c ∈ b, c ≠ '*')
    (he : ∀ c ∈ ext, c ≠ '*') (hbne : b ≠ []) :
    ¬(ext ++ ['*']).isPrefixOf (b ++ (ext ++ ['*'])) = true := by
  intro hpre
  obtain ⟨t, ht⟩ := List.isPrefixOf_iff_prefix.mp hpre
  have hstar : ((ext ++ ['*']) ++ t)[ext.length]? = some '*' := by
    rw [List.getElem?_append]
    rw [if_pos (by simp)]
    rw [List.getElem?_append]
    rw [if_neg (by omega)]
    simp
  rw [ht] at hstar
  rw [List.getElem?_append] at hstar
  by_cases hlt : ext.length < b.length
  · rw [if_pos hlt] at hstar
    exact hb '*' (List.getElem?_mem hstar) rfl
  · rw [if_neg hlt] at hstar
    have hblen : 1 ≤ b.length := by
      cases b
      · exact absurd rfl hbne
      · simp
    rw [List.getElem?_append] at hstar
    rw [if_pos (by omega)] at hstar
    exact he '*' (List.getElem?_mem hstar) rfl

theorem replAllF_self (pat : List Char) (hne : pat ≠ []) (f : Nat) :
    replAllF pat (f + 1) pat = [] := by
  cases pat with
  | nil => exact absurd rfl hne
  | cons c cs' =>
    show (if (c :: cs') ≠ [] ∧ (c :: cs').isPrefixOf (c :: cs') = true then
        replAllF (c :: cs') f (List.drop ((c :: cs').length - 1) cs')
      else c :: replAllF (c :: cs') f cs') = []
    rw [if_pos ⟨by simp, isPrefixOf_self _⟩]
    rw [show (c :: cs').length - 1 = cs'.length from by simp]
    rw [List.drop_length]
    exact replAllF_nil _ _

theorem replAllF_strip (ext : List Char) (he : ∀ c ∈ ext, c ≠ '*') :
    ∀ (b : List Char) (fuel : Nat), (∀ c ∈ b, c ≠ '*') →
    b.length + ext.length + 1 ≤ fuel →
    replAllF (ext ++ ['*']) fuel (b ++ (ext ++ ['*'])) = b := by
  intro b
  induction b with
  | nil =>
    intro fuel _ hf
    cases fuel with
    | zero => omega
    | succ f =>
      show replAllF (ext ++ ['*']) (f + 1) ([] ++ (ext ++ ['*'])) = []
      rw [List.nil_append]
      exact replAllF_self (ext ++ ['*']) (by simp) f
  | cons x b' ih =>
    intro fuel hb hf
    cases fuel with
    | zero => omega
    | succ f =>
      show (if (ext ++ ['*']) ≠ [] ∧ (ext ++ ['*']).isPrefixOf (x :: (b' ++ (ext ++ ['*']))) = true then
          replAllF (ext ++ ['*']) f (List.drop ((ext ++ ['*']).length - 1) (b' ++ (ext ++ ['*'])))
        else x :: replAllF (ext ++ ['*']) f (b' ++ (ext ++ ['*']))) = x :: b'
      rw [if_neg ?_]
      · rw [ih f (fun y hy => hb y (by simp [hy])) (by simp at hf; omega)]
      · rintro ⟨-, hpre⟩
        exact not_prefix_mid (x :: b') ext hb he (by simp) hpre

theorem replaceStr_star (m : String) (hm : ∀ c ∈ m.data, c ≠ '*') :
    replaceStr (m ++ "*") "*" = m := by
  apply string_data_inj
  show replAll ['*'] ((m ++ "*").data) = m.data
  rw [String.data_append]
  show replAllF ['*'] (m.data ++ ("*").data).length (m.data ++ ['*']) = m.data
  rw [show (m.data ++ ("*").data).length = m.data.length + 1 from by simp]
  exact replAllF_star m.data _ hm (le_refl _)

theorem replaceStr_strip (b ext : String) (hb : ∀ c ∈ b.data, c ≠ '*')
    (he : ∀ c ∈ ext.data, c ≠ '*') :
    replaceStr (b ++ (ext ++ "*")) (ext ++ "*") = b := by
  apply string_data_inj
  show replAll (ext ++ "*").data ((b ++ (ext ++ "*")).data) = b.data
  have hpat : (ext ++ "*").data = ext.data ++ ['*'] := by rw [String.data_append]
  have hs : (b ++ (ext ++ "*")).data = b.data ++ (ext.data ++ ['*']) := by
    rw [String.data_append, hpat]
  rw [hpat, hs]
  show replAllF (ext.data ++ ['*'])
    (b.data ++ (ext.data ++ ['*'])).length (b.data ++ (ext.data ++ ['*'])) = b.data
  rw [show (b.data ++ (ext.data ++ ['*'])).length =
    b.data.length + ext.data.length + 1 from by
      simp only [List.length_append, List.length_cons, List.length_nil]
      omega]
  exact replAllF_strip ext.data he b.data _ hb (le_refl _)

theorem relaxRenameMap_eq (bases : List String) (ext : String)
    (hb : ∀ b ∈ bases, ∀ c ∈ b.data, c ≠ '*') (he : ∀ c ∈ ext.data, c ≠ '*') :
    relaxRenameMap ext (mkPatterns bases ext) = bases.map (fun b => (b ++ ext, b)) := by
  unfold relaxRenameMap mkPatterns
  rw [List.map_map]
  apply List.map_congr_left
  intro b hbmem
  show (replaceStr (b ++ ext ++ "*") "*", replaceStr (b ++ ext ++ "*") (ext ++ "*")) =
    (b ++ ext, b)
  have hassoc : b ++ ext ++ "*" = (b ++ ext) ++ "*" := rfl
  have hassoc2 : b ++ ext ++ "*" = b ++ (ext ++ "*") := by
    apply string_data_inj
    simp [String.data_append]
  have h1 : replaceStr (b ++ ext ++ "*") "*" = b ++ ext := by
    rw [hassoc]
    apply replaceStr_star
    intro c hc
    rw [String.data_append] at hc
    rcases List.mem_append.mp hc with h | h
    · exact hb b hbmem c h
    · exact he c h
  have h2 : replaceStr (b ++ ext ++ "*") (ext ++ "*") = b := by
    rw [hassoc2]
    exact replaceStr_strip b ext (hb b hbmem) he
  rw [h1, h2]

/-! ## Post-copy characterization -/

theorem lookupD_some_mem : ∀ {d : List (String × String)} {m c : String},
    lookupD d m = some c → (m, c) ∈ d := by
  intro d
  induction d with
  | nil => intro m c h; cases h
  | cons e es ih =>
    intro m c h
    unfold lookupD at h
    by_cases he : e.1 = m
    · rw [if_pos he] at h
      cases h
      have hee : e = (m, e.2) := by
        rw [← he]
      rw [← hee]
      exact List.mem_cons_self e es
    · rw [if_neg he] at h
      exact List.mem_cons.mpr (Or.inr (ih h))

theorem copiedName_append {src : List (String × String)} {l1 l2 : List String}
    {m : String} :
    CopiedName src (l1 ++ l2) m ↔ CopiedName src l1 m ∨ CopiedName src l2 m := by
  unfold CopiedName
  constructor
  · rintro ⟨e, he, rfl, p, hp, hm⟩
    rcases List.mem_append.mp hp with h | h
    · exact Or.inl ⟨e, he, rfl, p, h, hm⟩
    · exact Or.inr ⟨e, he, rfl, p, h, hm⟩
  · rintro (⟨e, he, rfl, p, hp, hm⟩ | ⟨e, he, rfl, p, hp, hm⟩)
    · exact ⟨e, he, rfl, p, List.mem_append.mpr (Or.inl hp), hm⟩
    · exact ⟨e, he, rfl, p, List.mem_append.mpr (Or.inr hp), hm⟩

theorem two_copy_lookup {additional : List String} {ext : String} {st1 st2 : FS}
    {src d0 : List (String × String)}
    (H1 : (namesD src).Nodup)
    (h1 : copy_files (mkPatterns (requiredBase additional) ext) false ⟨src, d0⟩ = .ok st1)
    (h2 : copy_files (mkPatterns optionalBase ext) true st1 = .ok st2) :
    ∀ m, lookupD st2.dst m =
      if CopiedName src (mkPatterns (requiredBase additional) ext ++
          mkPatterns optionalBase ext) m
      then lookupD src m else lookupD d0 m := by
  intro m
  have hsrc1 : st1.src = src := copy_files_src _ _ _ _ h1
  have l1 := copy_files_lookup _ _ _ _ H1 h1 m
  simp only [show ({ src := src, dst := d0 } : FS).src = src from rfl,
    show ({ src := src, dst := d0 } : FS).dst = d0 from rfl] at l1
  have l2 := copy_files_lookup _ _ _ _ (by rw [hsrc1]; exact H1) h2 m
  rw [hsrc1] at l2
  rw [l2]
  by_cases ho : CopiedName src (mkPatterns optionalBase ext) m
  · rw [if_pos ho, if_pos (copiedName_append.mpr (Or.inr ho))]
  · rw [if_neg ho, l1]
    by_cases hr : CopiedName src (mkPatterns (requiredBase additional) ext) m
    · rw [if_pos hr, if_pos (copiedName_append.mpr (Or.inl hr))]
    · rw [if_neg hr, if_neg (fun hc => (copiedName_append.mp hc).elim hr ho)]

theorem globMatch_self_pattern (b ext : String) (hb : ∀ c ∈ b.data, c ≠ '*')
    (he : ∀ c ∈ ext.data, c ≠ '*') :
    globMatch (b ++ ext ++ "*") (b ++ ext) = true := by
  have h := globMatch_base_pattern b ext hb he ""
  rwa [show (b ++ ext ++ "" : String) = b ++ ext from
    string_data_inj (by simp [String.data_append])] at h

theorem mkPatterns_append (l1 l2 : List String) (ext : String) :
    mkPatterns (l1 ++ l2) ext = mkPatterns l1 ext ++ mkPatterns l2 ext := by
  unfold mkPatterns
  exact List.map_append _ _ _

/-- A canonical base-form name present in the source is copied. -/
theorem base_form_copied {additional : List String} {ext : String}
    {src : List (String × String)} {b m : String}
    (hb : b ∈ allBases additional)
    (hstar : ∀ c ∈ b.data, c ≠ '*') (hestar : ∀ c ∈ ext.data, c ≠ '*')
    (hform : m = b ++ ext ∨ m = b ++ ext ++ ".gz")
    (hlk : lookupD src m ≠ none) :
    CopiedName src (mkPatterns (requiredBase additional) ext ++
      mkPatterns optionalBase ext) m := by
  obtain ⟨c, hc⟩ : ∃ c, lookupD src m = some c := by
    cases h : lookupD src m
    · exact absurd h hlk
    · exact ⟨_, rfl⟩
  have hmem := lookupD_some_mem hc
  have hpat : (b ++ ext ++ "*") ∈ mkPatterns (requiredBase additional) ext ++
      mkPatterns optionalBase ext := by
    rw [← mkPatterns_append]
    exact List.mem_map.mpr ⟨b, hb, rfl⟩
  refine ⟨(m, c), hmem, rfl, b ++ ext ++ "*", hpat, ?_⟩
  rcases hform with rfl | rfl
  · exact globMatch_self_pattern b ext hstar hestar
  · exact globMatch_base_pattern b ext hstar hestar ".gz"

/-- Every copied name is a canonical base form (under the canonical
source hypothesis). -/
theorem copied_shape {additional : List String} {ext : String}
    {src : List (String × String)} {m : String}
    (H2 : ∀ e ∈ src, (∃ p ∈ mkPatterns (requiredBase additional) ext ++
        mkPatterns optionalBase ext, globMatch p e.1 = true) →
      ∃ b ∈ allBases additional, e.1 = b ++ ext ∨ e.1 = b ++ ext ++ ".gz")
    (hc : CopiedName src (mkPatterns (requiredBase additional) ext ++
      mkPatterns optionalBase ext) m) :
    (∃ b ∈ allBases additional, m = b ++ ext ∨ m = b ++ ext ++ ".gz") ∧
      lookupD src m ≠ none := by
  obtain ⟨e, he, rfl, p, hp, hm⟩ := hc
  refine ⟨H2 e he ⟨p, hp, hm⟩, ?_⟩
  exact lookupD_isSome_of_mem he

/-! ## Gunzip characterization -/

theorem gunzip_fold_lookup (pats : List String) (D : List (String × String))
    (hnc : ∀ e ∈ D, gzCond pats e = true → (e.1 ++ ".gz") ∉ namesD D) :
    ∀ (l : List (String × String)), (∀ x ∈ l, x ∈ D) → (namesD l).Nodup →
    ∀ (d : List (String × String)) (m : String),
    lookupD (l.foldl (gunzipStep pats) d) m =
      match l.find? (fun x => gzCond pats x && (stripGz x.1 == m)) with
      | some x => some x.2
      | none =>
        if l.any (fun x => gzCond pats x && (x.1 == m)) then none
        else lookupD d m := by
  intro l
  induction l with
  | nil => intro _ _ d m; rfl
  | cons e rest ih =>
    intro hl hnd d m
    have hcons : namesD (e :: rest) = e.1 :: namesD rest := rfl
    rw [hcons, List.nodup_cons] at hnd
    have hnotin : e.1 ∉ namesD rest := hnd.1
    have hrest_nd : (namesD rest).Nodup := hnd.2
    have hrest_mem : ∀ x ∈ rest, x ∈ D := fun x hx => hl x (by simp [hx])
    rw [List.foldl_cons]
    by_cases hz : gzCond pats e = true
    · have hstep : gunzipStep pats d e = upsert (stripGz e.1) e.2 (eraseName e.1 d) := by
        unfold gunzipStep; rw [if_pos hz]
      rw [hstep, ih hrest_mem hrest_nd _ m]
      have hgz : endsGz e.1 = true := by
        have h := hz
        unfold gzCond at h
        simp only [Bool.and_eq_true] at h
        exact h.2
      have he1 : e.1 = stripGz e.1 ++ ".gz" := append_stripGz_of_endsGz hgz
      by_cases hm : stripGz e.1 = m
      · rw [List.find?_cons_of_pos _ (by simp [hz, hm])]
        have hfr : rest.find? (fun x => gzCond pats x && (stripGz x.1 == m)) = none := by
          rw [List.find?_eq_none]
          intro x hx hpx
          simp only [gzCond, Bool.and_eq_true, beq_iff_eq] at hpx
          have hgzx : endsGz x.1 = true := hpx.1.2
          have hx1 : x.1 = e.1 := by
            rw [append_stripGz_of_endsGz hgzx, hpx.2, ← hm]
            exact he1.symm
          exact hnotin (hx1 ▸ List.mem_map.mpr ⟨x, hx, rfl⟩)
        have har : rest.any (fun x => gzCond pats x && (x.1 == m)) = false := by
          by_contra hc
          rw [Bool.not_eq_false, List.any_eq_true] at hc
          obtain ⟨x, hx, hpx⟩ := hc
          rw [Bool.and_eq_true] at hpx
          have hx1 : x.1 = m := by simpa using hpx.2
          apply hnc x (hrest_mem x hx) hpx.1
          rw [hx1, ← hm, ← he1]
          exact List.mem_map.mpr ⟨e, hl e (by simp), rfl⟩
        rw [hfr]
        show (if rest.any (fun x => gzCond pats x && (x.1 == m)) = true then none
          else lookupD (upsert (stripGz e.1) e.2 (eraseName e.1 d)) m) = some e.2
        rw [har]
        show lookupD (upsert (stripGz e.1) e.2 (eraseName e.1 d)) m = some e.2
        rw [lookupD_upsert, if_pos hm.symm]
      · rw [List.find?_cons_of_neg _ (by simp [hm])]
        by_cases hem : e.1 = m
        · cases hfr : rest.find? (fun x => gzCond pats x && (stripGz x.1 == m)) with
          | some x => rfl
          | none =>
            have hany : (e :: rest).any (fun x => gzCond pats x && (x.1 == m)) = true := by
              rw [List.any_cons]
              simp [hz, hem]
            have har : rest.any (fun x => gzCond pats x && (x.1 == m)) = false := by
              by_contra hc
              rw [Bool.not_eq_false, List.any_eq_true] at hc
              obtain ⟨x, hx, hpx⟩ := hc
              rw [Bool.and_eq_true] at hpx
              have hx1 : x.1 = m := by simpa using hpx.2
              apply hnotin
              rw [hem, ← hx1]
              exact List.mem_map.mpr ⟨x, hx, rfl⟩
            have hm' : ¬(m = stripGz e.1) := fun hc => hm hc.symm
            have hem' : m = e.1 := hem.symm
            rw [hany, har]
            rw [lookupD_upsert, if_neg hm', lookupD_eraseName, if_pos hem']
            simp
        · cases hfr : rest.find? (fun x => gzCond pats x && (stripGz x.1 == m)) with
          | some x => rfl
          | none =>
            have hany_eq : (e :: rest).any (fun x => gzCond pats x && (x.1 == m)) =
                rest.any (fun x => gzCond pats x && (x.1 == m)) := by
              rw [List.any_cons]
              simp [hem]
            rw [hany_eq]
            by_cases har : rest.any (fun x => gzCond pats x && (x.1 == m)) = true
            · rw [har]
              rfl
            · have hm' : ¬(m = stripGz e.1) := fun hc => hm hc.symm
              have hem' : ¬(m = e.1) := fun hc => hem hc.symm
              simp only [Bool.not_eq_true] at har
              simp only [har, Bool.false_eq_true, if_false, lookupD_upsert,
                lookupD_eraseName, hm', hem']
    · have hstep : gunzipStep pats d e = d := by
        unfold gunzipStep; rw [if_neg hz]
      rw [hstep, ih hrest_mem hrest_nd d m]
      have hfe : (e :: rest).find? (fun x => gzCond pats x && (stripGz x.1 == m)) =
          rest.find? (fun x => gzCond pats x && (stripGz x.1 == m)) :=
        List.find?_cons_of_neg _ (by simp [hz])
      have hae : (e :: rest).any (fun x => gzCond pats x && (x.1 == m)) =
          rest.any (fun x => gzCond pats x && (x.1 == m)) := by
        rw [List.any_cons]
        simp [hz]
      rw [hfe, hae]

/-! ## Rename characterization -/

theorem rename_fold_lookup :
    ∀ (pairs : List (String × String)),
    (pairs.map Prod.fst).Nodup →
    (pairs.map Prod.snd).Nodup →
    (∀ kv ∈ pairs, ∀ kv' ∈ pairs, kv.2 ≠ kv'.1) →
    ∀ (st st' : FS), rename_files pairs true st = .ok st' →
    ∀ m, lookupD st'.dst m =
      match pairs.find? (fun kv => kv.2 == m) with
      | some kv =>
        (match lookupD st.dst kv.1 with
          | some c => some c
          | none => lookupD st.dst m)
      | none =>
        if pairs.any (fun kv => kv.1 == m) then none
        else lookupD st.dst m := by
  intro pairs
  induction pairs with
  | nil =>
    intro _ _ _ st st' h m
    cases h
    rfl
  | cons kv rest ih =>
    intro hk hv hd st st' h m
    simp only [List.map_cons, List.nodup_cons] at hk hv
    have hdr : ∀ x ∈ rest, ∀ x' ∈ rest, x.2 ≠ x'.1 := fun x hx x' hx' =>
      hd x (by simp [hx]) x' (by simp [hx'])
    unfold rename_files at h
    cases hlk : lookupD st.dst kv.1 with
    | some c =>
      rw [hlk] at h
      have ihr := ih hk.2 hv.2 hdr _ st' h m
      rw [ihr]
      by_cases hm2 : kv.2 = m
      · rw [List.find?_cons_of_pos _ (by simp [hm2])]
        have hfr : rest.find? (fun x => x.2 == m) = none := by
          rw [List.find?_eq_none]
          intro x hx hpx
          apply hv.1
          rw [show kv.2 = x.2 from by rw [hm2]; symm; simpa using hpx]
          exact List.mem_map.mpr ⟨x, hx, rfl⟩
        have har : rest.any (fun x => x.1 == m) = false := by
          by_contra hc
          rw [Bool.not_eq_false, List.any_eq_true] at hc
          obtain ⟨x, hx, hpx⟩ := hc
          exact hd kv (by simp) x (by simp [hx])
            (by rw [hm2]; symm; simpa using hpx)
        rw [hfr]
        show (if (rest.any fun x => x.1 == m) = true then none
            else lookupD (upsert kv.2 c (eraseName kv.1 st.dst)) m) =
          match lookupD st.dst kv.1 with
          | some c => some c
          | none => lookupD st.dst m
        rw [hlk, har]
        show lookupD (upsert kv.2 c (eraseName kv.1 st.dst)) m = some c
        rw [lookupD_upsert, if_pos hm2.symm]
      · rw [List.find?_cons_of_neg _ (by simp [hm2])]
        by_cases hm1 : kv.1 = m
        · have hfr : rest.find? (fun x => x.2 == m) = none := by
            rw [List.find?_eq_none]
            intro x hx hpx
            exact hd x (by simp [hx]) kv (by simp)
              (by rw [hm1]; simpa using hpx)
          have hanyc : ((kv :: rest).any fun x => x.1 == m) = true := by
            rw [List.any_cons]
            simp [hm1]
          have har : rest.any (fun x => x.1 == m) = false := by
            by_contra hc
            rw [Bool.not_eq_false, List.any_eq_true] at hc
            obtain ⟨x, hx, hpx⟩ := hc
            apply hk.1
            rw [hm1, show m = x.1 from by symm; simpa using hpx]
            exact List.mem_map.mpr ⟨x, hx, rfl⟩
          rw [hfr, hanyc, har]
          have hm2' : ¬(m = kv.2) := fun hc => hm2 hc.symm
          rw [lookupD_upsert, if_neg hm2', lookupD_eraseName, if_pos hm1.symm]
          rfl
        · cases hfr : rest.find? (fun x => x.2 == m) with
          | some x =>
            have hxr := List.mem_of_find?_eq_some hfr
            have hx1ne : ¬(x.1 = kv.2) :=
              fun hc => hd kv (by simp) x (by simp [hxr]) hc.symm
            have hx1nk : ¬(x.1 = kv.1) := by
              intro hc
              apply hk.1
              rw [← hc]
              exact List.mem_map.mpr ⟨x, hxr, rfl⟩
            have hm2' : ¬(m = kv.2) := fun hc => hm2 hc.symm
            have hm1' : ¬(m = kv.1) := fun hc => hm1 hc.symm
            have hlk2 : lookupD (upsert kv.2 c (eraseName kv.1 st.dst)) x.1 =
                lookupD st.dst x.1 := by
              rw [lookupD_upsert, if_neg hx1ne, lookupD_eraseName, if_neg hx1nk]
            have hlkm : lookupD (upsert kv.2 c (eraseName kv.1 st.dst)) m =
                lookupD st.dst m := by
              rw [lookupD_upsert, if_neg hm2', lookupD_eraseName, if_neg hm1']
            show (match lookupD (upsert kv.2 c (eraseName kv.1 st.dst)) x.1 with
              | some c => some c
              | none => lookupD (upsert kv.2 c (eraseName kv.1 st.dst)) m) =
              match lookupD st.dst x.1 with
              | some c => some c
              | none => lookupD st.dst m
            rw [hlk2, hlkm]
          | none =>
            have hany_eq : ((kv :: rest).any fun x => x.1 == m) =
                rest.any (fun x => x.1 == m) := by
              rw [List.any_cons]
              simp [hm1]
            rw [hany_eq]
            by_cases har : rest.any (fun x => x.1 == m) = true
            · rw [har]
              rfl
            · simp only [Bool.not_eq_true] at har
              rw [har]
              have hm2' : ¬(m = kv.2) := fun hc => hm2 hc.symm
              have hm1' : ¬(m = kv.1) := fun hc => hm1 hc.symm
              show lookupD (upsert kv.2 c (eraseName kv.1 st.dst)) m = lookupD st.dst m
              rw [lookupD_upsert, if_neg hm2', lookupD_eraseName, if_neg hm1']
    | none =>
      rw [hlk] at h
      rw [if_pos rfl] at h
      have ihr := ih hk.2 hv.2 hdr st st' h m
      rw [ihr]
      by_cases hm2 : kv.2 = m
      · rw [List.find?_cons_of_pos _ (by simp [hm2])]
        have hfr : rest.find? (fun x => x.2 == m) = none := by
          rw [List.find?_eq_none]
          intro x hx hpx
          apply hv.1
          rw [show kv.2 = x.2 from by rw [hm2]; symm; simpa using hpx]
          exact List.mem_map.mpr ⟨x, hx, rfl⟩
        have har : rest.any (fun x => x.1 == m) = false := by
          by_contra hc
          rw [Bool.not_eq_false, List.any_eq_true] at hc
          obtain ⟨x, hx, hpx⟩ := hc
          exact hd kv (by simp) x (by simp [hx])
            (by rw [hm2]; symm; simpa using hpx)
        rw [hfr]
        show (if (rest.any fun x => x.1 == m) = true then none
            else lookupD st.dst m) =
          match lookupD st.dst kv.1 with
          | some c => some c
          | none => lookupD st.dst m
        rw [hlk, har]
        rfl
      · rw [List.find?_cons_of_neg _ (by simp [hm2])]
        by_cases hm1 : kv.1 = m
        · have hfr : rest.find? (fun x => x.2 == m) = none := by
            rw [List.find?_eq_none]
            intro x hx hpx
            exact hd x (by simp [hx]) kv (by simp)
              (by rw [hm1]; simpa using hpx)
          have hanyc : ((kv :: rest).any fun x => x.1 == m) = true := by
            rw [List.any_cons]
            simp [hm1]
          have har : rest.any (fun x => x.1 == m) = false := by
            by_contra hc
            rw [Bool.not_eq_false, List.any_eq_true] at hc
            obtain ⟨x, hx, hpx⟩ := hc
            apply hk.1
            rw [hm1, show m = x.1 from by symm; simpa using hpx]
            exact List.mem_map.mpr ⟨x, hx, rfl⟩
          rw [hfr, hanyc, har]
          show lookupD st.dst m = none
          rw [← hm1]
          exact hlk
        · cases hfr : rest.find? (fun x => x.2 == m) with
          | some x => rfl
          | none =>
            have hany_eq : ((kv :: rest).any fun x => x.1 == m) =
                rest.any (fun x => x.1 == m) := by
              rw [List.any_cons]
              simp [hm1]
            rw [hany_eq]

/-! ## Nodup preservation and the canonical value -/

theorem gunzip_files_nodup (pats : List String) (st : FS)
    (h : (namesD st.dst).Nodup) : (namesD (gunzip_files pats st).dst).Nodup := by
  show (namesD (st.dst.foldl (gunzipStep pats) st.dst)).Nodup
  have : ∀ (l d : List (String × String)), (namesD d).Nodup →
      (namesD (l.foldl (gunzipStep pats) d)).Nodup := by
    intro l
    induction l with
    | nil => intro d hd; exact hd
    | cons e rest ih =>
      intro d hd
      rw [List.foldl_cons]
      apply ih
      unfold gunzipStep
      by_cases hz : gzCond pats e = true
      · rw [if_pos hz]
        exact nodup_upsert _ _ (nodup_eraseName _ hd)
      · rw [if_neg hz]
        exact hd
  exact this st.dst st.dst h

theorem rename_files_nodup : ∀ (pairs : List (String × String)) (b : Bool) (st st' : FS),
    (namesD st.dst).Nodup → rename_files pairs b st = .ok st' →
    (namesD st'.dst).Nodup := by
  intro pairs
  induction pairs with
  | nil => intro b st st' h hr; cases hr; exact h
  | cons kv rest ih =>
    intro b st st' h hr
    unfold rename_files at hr
    cases hlk : lookupD st.dst kv.1 with
    | some c =>
      rw [hlk] at hr
      exact ih b _ st' (nodup_upsert _ _ (nodup_eraseName _ h)) hr
    | none =>
      rw [hlk] at hr
      cases b
      · cases hr
      · exact ih true st st' h hr

theorem append_empty_str (s : String) : s ++ "" = s := by
  apply string_data_inj
  rw [String.data_append]
  simp

theorem endsGz_getLast {n : String} (h : endsGz n = true) :
    n.data.getLast? = some 'z' := by
  rw [endsGz_data h]
  rw [show n.data.take (n.data.length - 3) ++ ['.', 'g', 'z'] =
    (n.data.take (n.data.length - 3) ++ ['.', 'g']) ++ ['z'] from by simp]
  exact List.getLast?_concat _

theorem append_gz_getLast (s : String) : (s ++ ".gz").data.getLast? = some 'z' := by
  rw [String.data_append]
  rw [show s.data ++ (".gz").data = (s.data ++ ['.', 'g']) ++ ['z'] from by
    show s.data ++ ['.', 'g', 'z'] = _
    simp]
  exact List.getLast?_concat _

theorem append_right_cancel_str {a b c : String} (h : a ++ c = b ++ c) : a = b := by
  apply string_data_inj
  have := congrArg String.data h
  rw [String.data_append, String.data_append] at this
  exact List.append_cancel_right this

theorem str_append_gz_eq (s : String) : (s ++ ".gz") = ⟨s.data ++ ['.', 'g', 'z']⟩ := rfl

theorem endsGz_append_gz_str (s : String) : endsGz (s ++ ".gz") = true := by
  rw [str_append_gz_eq]
  exact endsGz_append_gz s.data

theorem stripGz_append_gz_str (s : String) : stripGz (s ++ ".gz") = s := by
  rw [str_append_gz_eq, stripGz_append_gz]

/-! ## The pipeline characterization and the amended C6 and C8 -/

/-- Joint characterization of the destination after the two copy phases
and the decompression phase, under the canonical-source hypotheses. -/
theorem gunzip_phase_lookup
    {additional : List String} {src d0 : List (String × String)} {ext : String}
    {st1 st2 : FS}
    (H1 : (namesD src).Nodup)
    (H2 : ∀ e ∈ src, (∃ p ∈ mkPatterns (requiredBase additional) ext ++
        mkPatterns optionalBase ext, globMatch p e.1 = true) →
      ∃ b ∈ allBases additional, e.1 = b ++ ext ∨ e.1 = b ++ ext ++ ".gz")
    (H4 : ∀ b ∈ allBases additional, globMatch "*.relax*" b = false ∧
      (∀ c ∈ b.data, c ≠ '*') ∧ b.data.getLast? ≠ some 'z' ∧ b ≠ "POSCAR")
    (HE : ext = "" ∨ ∃ ds : List Char, ds ≠ [] ∧ (∀ c ∈ ds, c.isDigit = true) ∧
      ext = ".relax" ++ (⟨ds⟩ : String))
    (H7a : (namesD d0).Nodup)
    (H7b : ∀ n ∈ namesD d0, globMatch "*.relax*" n = false ∧ n.data.getLast? ≠ some 'z')
    (h1 : copy_files (mkPatterns (requiredBase additional) ext) false ⟨src, d0⟩ = .ok st1)
    (h2 : copy_files (mkPatterns optionalBase ext) true st1 = .ok st2) :
    (∀ b ∈ allBases additional,
      lookupD (gunzip_files (mkPatterns (requiredBase additional) ext ++
        mkPatterns optionalBase ext) st2).dst (b ++ ext) =
        match lookupD src (b ++ ext ++ ".gz") with
        | some c => some c
        | none => match lookupD src (b ++ ext) with
          | some c => some c
          | none => lookupD d0 (b ++ ext)) ∧
    (∀ m, (∀ b ∈ allBases additional, m ≠ b ++ ext) →
      lookupD (gunzip_files (mkPatterns (requiredBase additional) ext ++
        mkPatterns optionalBase ext) st2).dst m = lookupD d0 m) ∧
    (namesD (gunzip_files (mkPatterns (requiredBase additional) ext ++
        mkPatterns optionalBase ext) st2).dst).Nodup := by
  obtain ⟨hestar, hext_ne⟩ := ext_facts HE
  have hlast_be : ∀ b ∈ allBases additional, (b ++ ext).data.getLast? ≠ some 'z' := by
    intro b hb
    by_cases hne : ext = ""
    · rw [hne, append_empty_str]
      exact (H4 b hb).2.2.1
    · rw [getLast?_append_string b ext ((hext_ne hne).1)]
      exact (hext_ne hne).2.1
  have h_be_not_gz : ∀ b ∈ allBases additional, endsGz (b ++ ext) = false :=
    fun b hb => endsGz_false_of_getLast (hlast_be b hb)
  have h_d0_no_gz : ∀ s : String, lookupD d0 (s ++ ".gz") = none := by
    intro s
    by_contra hc
    exact (H7b _ (mem_namesD.mpr hc)).2 (append_gz_getLast s)
  have hcopy := two_copy_lookup H1 h1 h2
  have hnd2 : (namesD st2.dst).Nodup :=
    copy_files_nodup_dst _ _ _ _ (copy_files_nodup_dst _ _ _ _ H7a h1) h2
  have hPmem : ∀ b ∈ allBases additional, (b ++ ext ++ "*") ∈
      mkPatterns (requiredBase additional) ext ++ mkPatterns optionalBase ext := by
    intro b hb
    rw [← mkPatterns_append]
    exact List.mem_map.mpr ⟨b, hb, rfl⟩
  have hgzCond : ∀ b ∈ allBases additional, ∀ c : String,
      gzCond (mkPatterns (requiredBase additional) ext ++ mkPatterns optionalBase ext)
        (b ++ ext ++ ".gz", c) = true := by
    intro b hb c
    unfold gzCond
    rw [Bool.and_eq_true]
    constructor
    · rw [List.any_eq_true]
      exact ⟨b ++ ext ++ "*", hPmem b hb,
        globMatch_base_pattern b ext (H4 b hb).2.1 hestar ".gz"⟩
    · exact endsGz_append_gz_str (b ++ ext)
  have hentry_gz : ∀ x ∈ st2.dst,
      gzCond (mkPatterns (requiredBase additional) ext ++
        mkPatterns optionalBase ext) x = true →
      ∃ b ∈ allBases additional, x.1 = b ++ ext ++ ".gz" ∧
        lookupD src x.1 = some x.2 := by
    intro x hx hz
    have hgz : endsGz x.1 = true := by
      unfold gzCond at hz
      rw [Bool.and_eq_true] at hz
      exact hz.2
    have hlk2 : lookupD st2.dst x.1 = some x.2 := lookupD_eq_some_of_mem_nodup hnd2 hx
    rw [hcopy x.1] at hlk2
    by_cases hcN : CopiedName src (mkPatterns (requiredBase additional) ext ++
        mkPatterns optionalBase ext) x.1
    · obtain ⟨⟨b, hb, hform⟩, _⟩ := copied_shape H2 hcN
      rcases hform with hpl | hgzf
      · exfalso
        rw [hpl, h_be_not_gz b hb] at hgz
        cases hgz
      · rw [if_pos hcN] at hlk2
        exact ⟨b, hb, hgzf, hlk2⟩
    · rw [if_neg hcN] at hlk2
      exact absurd (endsGz_getLast hgz)
        ((H7b x.1 (mem_namesD.mpr (by rw [hlk2]; exact Option.some_ne_none _))).2)
  have hnc : ∀ e ∈ st2.dst,
      gzCond (mkPatterns (requiredBase additional) ext ++
        mkPatterns optionalBase ext) e = true →
      (e.1 ++ ".gz") ∉ namesD st2.dst := by
    intro e he hz hmem
    obtain ⟨b, hb, hgzf, _⟩ := hentry_gz e he hz
    have hlk2 := mem_namesD.mp hmem
    rw [hcopy] at hlk2
    by_cases hcN : CopiedName src (mkPatterns (requiredBase additional) ext ++
        mkPatterns optionalBase ext) (e.1 ++ ".gz")
    · obtain ⟨⟨b', hb', hform⟩, _⟩ := copied_shape H2 hcN
      rcases hform with hpl | hgzf'
      · exact hlast_be b' hb' (by rw [← hpl]; exact append_gz_getLast e.1)
      · have he1 : e.1 = b' ++ ext := append_right_cancel_str hgzf'
        have hgz : endsGz e.1 = true := by
          rw [hgzf]
          exact endsGz_append_gz_str _
        rw [he1, h_be_not_gz b' hb'] at hgz
        cases hgz
    · rw [if_neg hcN] at hlk2
      exact hlk2 (h_d0_no_gz e.1)
  have hg := gunzip_fold_lookup
    (mkPatterns (requiredBase additional) ext ++ mkPatterns optionalBase ext)
    st2.dst hnc st2.dst (fun x hx => hx) hnd2 st2.dst
  have hdst : (gunzip_files (mkPatterns (requiredBase additional) ext ++
      mkPatterns optionalBase ext) st2).dst =
      st2.dst.foldl (gunzipStep (mkPatterns (requiredBase additional) ext ++
        mkPatterns optionalBase ext)) st2.dst := rfl
  refine ⟨?_, ?_, ?_⟩
  · -- the canonical suffixed names
    intro b hb
    rw [hdst, hg (b ++ ext)]
    cases hsg : lookupD src (b ++ ext ++ ".gz") with
    | some c =>
      have hCop : CopiedName src (mkPatterns (requiredBase additional) ext ++
          mkPatterns optionalBase ext) (b ++ ext ++ ".gz") :=
        base_form_copied hb (H4 b hb).2.1 hestar (Or.inr rfl)
          (by rw [hsg]; exact Option.some_ne_none _)
      have hlk2 : lookupD st2.dst (b ++ ext ++ ".gz") = some c := by
        rw [hcopy, if_pos hCop, hsg]
      have hmem2 : (b ++ ext ++ ".gz", c) ∈ st2.dst := lookupD_some_mem hlk2
      cases hf : st2.dst.find? (fun x =>
          gzCond (mkPatterns (requiredBase additional) ext ++
            mkPatterns optionalBase ext) x && (stripGz x.1 == b ++ ext)) with
      | none =>
        exfalso
        have hno := List.find?_eq_none.mp hf _ hmem2
        apply hno
        rw [Bool.and_eq_true]
        refine ⟨hgzCond b hb c, ?_⟩
        show (stripGz ((b ++ ext) ++ ".gz") == b ++ ext) = true
        rw [stripGz_append_gz_str]
        exact beq_self_eq_true _
      | some x =>
        have hxmem := List.mem_of_find?_eq_some hf
        have hxP := List.find?_some hf
        rw [Bool.and_eq_true] at hxP
        obtain ⟨hxgz, hxstrip⟩ := hxP
        have hxstrip' : stripGz x.1 = b ++ ext := eq_of_beq hxstrip
        obtain ⟨b', hb', hx1, hxsrc⟩ := hentry_gz x hxmem hxgz
        have hb'b : b' ++ ext = b ++ ext := by
          rw [hx1, stripGz_append_gz_str] at hxstrip'
          exact hxstrip'
        have hx1' : x.1 = b ++ ext ++ ".gz" := by
          rw [hx1, hb'b]
        rw [hx1'] at hxsrc
        rw [hsg] at hxsrc
        show some x.2 = some c
        exact hxsrc.symm
    | none =>
      have hfnone : st2.dst.find? (fun x =>
          gzCond (mkPatterns (requiredBase additional) ext ++
            mkPatterns optionalBase ext) x && (stripGz x.1 == b ++ ext)) = none := by
        rw [List.find?_eq_none]
        intro x hx hPx
        rw [Bool.and_eq_true] at hPx
        obtain ⟨b', hb', hx1, hxsrc⟩ := hentry_gz x hx hPx.1
        have hxstrip' : stripGz x.1 = b ++ ext := eq_of_beq hPx.2
        rw [hx1, stripGz_append_gz_str] at hxstrip'
        rw [hx1, hxstrip'] at hxsrc
        rw [hsg] at hxsrc
        cases hxsrc
      have hanone : st2.dst.any (fun x =>
          gzCond (mkPatterns (requiredBase additional) ext ++
            mkPatterns optionalBase ext) x && (x.1 == b ++ ext)) = false := by
        rw [List.any_eq_false]
        intro x hx hPx
        rw [Bool.and_eq_true] at hPx
        have hx1 : x.1 = b ++ ext := eq_of_beq hPx.2
        have hgz : endsGz x.1 = true := by
          have h := hPx.1
          unfold gzCond at h
          rw [Bool.and_eq_true] at h
          exact h.2
        rw [hx1, h_be_not_gz b hb] at hgz
        cases hgz
      rw [hfnone]
      show (if st2.dst.any (fun x =>
          gzCond (mkPatterns (requiredBase additional) ext ++
            mkPatterns optionalBase ext) x && (x.1 == b ++ ext)) = true
        then none else lookupD st2.dst (b ++ ext)) = _
      rw [hanone]
      simp only [Bool.false_eq_true, if_false]
      rw [hcopy]
      cases hsp : lookupD src (b ++ ext) with
      | some c =>
        rw [if_pos (base_form_copied hb (H4 b hb).2.1 hestar (Or.inl rfl)
          (by rw [hsp]; exact Option.some_ne_none _))]
      | none =>
        rw [if_neg (fun hCop => (copied_shape H2 hCop).2 hsp)]
  · -- names that are not a canonical suffixed name
    intro m hm
    rw [hdst, hg m]
    have hfnone : st2.dst.find? (fun x =>
        gzCond (mkPatterns (requiredBase additional) ext ++
          mkPatterns optionalBase ext) x && (stripGz x.1 == m)) = none := by
      rw [List.find?_eq_none]
      intro x hx hPx
      rw [Bool.and_eq_true] at hPx
      obtain ⟨b', hb', hx1, hxsrc⟩ := hentry_gz x hx hPx.1
      have hxstrip' : stripGz x.1 = m := eq_of_beq hPx.2
      rw [hx1, stripGz_append_gz_str] at hxstrip'
      exact hm b' hb' hxstrip'.symm
    rw [hfnone]
    show (if st2.dst.any (fun x =>
        gzCond (mkPatterns (requiredBase additional) ext ++
          mkPatterns optionalBase ext) x && (x.1 == m)) = true
      then none else lookupD st2.dst m) = _
    cases hany : st2.dst.any (fun x =>
        gzCond (mkPatterns (requiredBase additional) ext ++
          mkPatterns optionalBase ext) x && (x.1 == m)) with
    | true =>
      rw [if_pos rfl]
      rw [List.any_eq_true] at hany
      obtain ⟨x, hx, hPx⟩ := hany
      rw [Bool.and_eq_true] at hPx
      obtain ⟨b', hb', hx1, _⟩ := hentry_gz x hx hPx.1
      have hxm : x.1 = m := eq_of_beq hPx.2
      rw [← hxm, hx1]
      exact (h_d0_no_gz (b' ++ ext)).symm
    | false =>
      simp only [Bool.false_eq_true, if_false]
      rw [hcopy]
      have hnCop : ¬ CopiedName src (mkPatterns (requiredBase additional) ext ++
          mkPatterns optionalBase ext) m := by
        intro hCop
        obtain ⟨⟨b', hb', hform⟩, hsrcne⟩ := copied_shape H2 hCop
        rcases hform with hpl | hgzf
        · exact hm b' hb' hpl
        · obtain ⟨c, hc⟩ : ∃ c, lookupD st2.dst m = some c := by
            have hlk2 : lookupD st2.dst m ≠ none := by
              rw [hcopy, if_pos hCop]
              exact hsrcne
            cases h : lookupD st2.dst m
            · exact absurd h hlk2
            · exact ⟨_, rfl⟩
          have hmem2 := lookupD_some_mem hc
          have hcontra : st2.dst.any (fun x =>
              gzCond (mkPatterns (requiredBase additional) ext ++
                mkPatterns optionalBase ext) x && (x.1 == m)) = true := by
            rw [List.any_eq_true]
            refine ⟨(m, c), hmem2, ?_⟩
            rw [Bool.and_eq_true]
            refine ⟨?_, beq_self_eq_true m⟩
            rw [hgzf]
            exact hgzCond b' hb' c
          rw [hcontra] at hany
          cases hany
      rw [if_neg hnCop]
  · exact gunzip_files_nodup _ _ hnd2

/-- The final strict CONTCAR → POSCAR rename, decomposed. -/
theorem strict_contcar_decomp {st st' : FS}
    (h : rename_files [("CONTCAR", "POSCAR")] false st = .ok st') :
    ∃ c, lookupD st.dst "CONTCAR" = some c ∧
      st'.dst = upsert "POSCAR" c (eraseName "CONTCAR" st.dst) := by
  have h' : (match lookupD st.dst "CONTCAR" with
    | some c => Except.ok ({ st with
        dst := upsert "POSCAR" c (eraseName "CONTCAR" st.dst) } : FS)
    | none => (Except.error (VErr.renameError "CONTCAR") : Except VErr FS)) = .ok st' := h
  cases hlk : lookupD st.dst "CONTCAR" with
  | none =>
    rw [hlk] at h'
    cases h'
  | some c =>
    rw [hlk] at h'
    refine ⟨c, rfl, ?_⟩
    rw [← Except.ok.inj h']

/-- Master characterization of a successful `copy_vasp_outputs` run on a
canonical source: every catalogued base name ends up holding the content
selected by `canonVal`, `CONTCAR` is renamed away into `POSCAR`, and all
other destination names are untouched. -/
theorem pipeline_lookup
    (additional : List String) (src d0 : List (String × String)) (ext : String)
    (stF : FS)
    (H1 : (namesD src).Nodup)
    (H2 : ∀ e ∈ src, (∃ p ∈ mkPatterns (requiredBase additional) ext ++
        mkPatterns optionalBase ext, globMatch p e.1 = true) →
      ∃ b ∈ allBases additional, e.1 = b ++ ext ∨ e.1 = b ++ ext ++ ".gz")
    (H4 : ∀ b ∈ allBases additional, globMatch "*.relax*" b = false ∧
      (∀ c ∈ b.data, c ≠ '*') ∧ b.data.getLast? ≠ some 'z' ∧ b ≠ "POSCAR")
    (H5 : (allBases additional).Nodup)
    (hext : get_largest_relax_extension (src.map (fun e => e.1)) = .ok ext)
    (H7a : (namesD d0).Nodup)
    (H7b : ∀ n ∈ namesD d0, globMatch "*.relax*" n = false ∧ n.data.getLast? ≠ some 'z')
    (hrun : copy_vasp_outputs additional true ⟨src, d0⟩ = .ok stF) :
    (∀ b ∈ allBases additional, b ≠ "CONTCAR" →
      lookupD stF.dst b = canonVal src d0 ext b) ∧
    lookupD stF.dst "CONTCAR" = none ∧
    lookupD stF.dst "POSCAR" = canonVal src d0 ext "CONTCAR" ∧
    canonVal src d0 ext "CONTCAR" ≠ none ∧
    (∀ m, m ∉ allBases additional → m ≠ "POSCAR" → m ≠ "CONTCAR" →
      lookupD stF.dst m = lookupD d0 m) ∧
    (namesD stF.dst).Nodup := by
  obtain ⟨ext', st1, st2, hext', h1, h2, hfin⟩ := copy_vasp_outputs_ok_inversion hrun
  have hee : ext = ext' := by
    have h1' : get_largest_relax_extension (src.map (fun e => e.1)) = .ok ext' := hext'
    rw [hext] at h1'
    exact Except.ok.inj h1'
  rw [← hee] at h1 h2 hfin
  obtain ⟨hF1, hF2, hnd3⟩ :=
    gunzip_phase_lookup H1 H2 H4 (resolver_ok_shape hext) H7a H7b h1 h2
  obtain ⟨hestar, hext_ne⟩ := ext_facts (resolver_ok_shape hext)
  have hCmem : "CONTCAR" ∈ allBases additional := by
    unfold allBases requiredBase
    simp
  unfold finish_copy at hfin
  by_cases hp : potcarAbsent st2 = true
  · rw [if_pos hp] at hfin
    cases hfin
  rw [if_neg hp] at hfin
  have hmain : ∃ st4 : FS,
      rename_files [("CONTCAR", "POSCAR")] false st4 = .ok stF ∧
      (∀ b ∈ allBases additional, lookupD st4.dst b = canonVal src d0 ext b) ∧
      (∀ m, m ∉ allBases additional → lookupD st4.dst m = lookupD d0 m) ∧
      (namesD st4.dst).Nodup := by
    by_cases hEe : ext = ""
    · subst hEe
      rw [if_neg (not_not_intro rfl)] at hfin
      simp only [Except.bind, if_true] at hfin
      have hst3_base : ∀ b ∈ allBases additional,
          lookupD (gunzip_files (mkPatterns (requiredBase additional) "" ++
            mkPatterns optionalBase "") st2).dst b = canonVal src d0 "" b := by
        intro b hb
        have h := hF1 b hb
        rw [append_empty_str] at h
        rw [h]
        unfold canonVal
        rw [append_empty_str]
      have hst3_other : ∀ m, m ∉ allBases additional →
          lookupD (gunzip_files (mkPatterns (requiredBase additional) "" ++
            mkPatterns optionalBase "") st2).dst m = lookupD d0 m := by
        intro m hm
        apply hF2 m
        intro b hb hc
        rw [append_empty_str] at hc
        exact hm (by rw [hc]; exact hb)
      exact ⟨_, hfin, hst3_base, hst3_other, hnd3⟩
    · rw [if_pos hEe] at hfin
      cases hR : rename_files (relaxRenameMap ext (mkPatterns optionalBase ext ++
          mkPatterns (requiredBase additional) ext)) true
          (gunzip_files (mkPatterns (requiredBase additional) ext ++
            mkPatterns optionalBase ext) st2) with
      | error e =>
        rw [hR] at hfin
        simp only [Except.bind] at hfin
        cases hfin
      | ok st4 =>
        rw [hR] at hfin
        simp only [Except.bind, if_true] at hfin
        have hmem' : ∀ b, b ∈ optionalBase ++ requiredBase additional ↔
            b ∈ allBases additional := by
          intro b
          unfold allBases
          rw [List.mem_append, List.mem_append]
          exact or_comm
        have hpairs : relaxRenameMap ext (mkPatterns optionalBase ext ++
            mkPatterns (requiredBase additional) ext) =
            (optionalBase ++ requiredBase additional).map (fun b => (b ++ ext, b)) := by
          rw [← mkPatterns_append]
          exact relaxRenameMap_eq _ ext
            (fun b hb c hc => (H4 b ((hmem' b).mp hb)).2.1 c hc) hestar
        rw [hpairs] at hR
        have hbnodup : (optionalBase ++ requiredBase additional).Nodup :=
          (List.Perm.nodup_iff List.perm_append_comm).mpr H5
        have hknd : (((optionalBase ++ requiredBase additional).map
            (fun b => (b ++ ext, b))).map Prod.fst).Nodup := by
          rw [List.map_map]
          exact List.Nodup.map (fun a b h => append_right_cancel_str h) hbnodup
        have hvnd : (((optionalBase ++ requiredBase additional).map
            (fun b => (b ++ ext, b))).map Prod.snd).Nodup := by
          rw [List.map_map]
          exact List.Nodup.map (fun a b h => h) hbnodup
        have hdisj : ∀ kv ∈ (optionalBase ++ requiredBase additional).map
              (fun b => (b ++ ext, b)),
            ∀ kv' ∈ (optionalBase ++ requiredBase additional).map
              (fun b => (b ++ ext, b)), kv.2 ≠ kv'.1 := by
          intro kv hkv kv' hkv'
          obtain ⟨x, hx, rfl⟩ := List.mem_map.mp hkv
          obtain ⟨y, hy, rfl⟩ := List.mem_map.mp hkv'
          show x ≠ y ++ ext
          intro hc
          have hxg := (H4 x ((hmem' x).mp hx)).1
          rw [hc, (hext_ne hEe).2.2 y] at hxg
          cases hxg
        have hren := rename_fold_lookup _ hknd hvnd hdisj _ _ hR
        have hnd4 : (namesD st4.dst).Nodup := rename_files_nodup _ _ _ _ hnd3 hR
        have hst4_base : ∀ b ∈ allBases additional,
            lookupD st4.dst b = canonVal src d0 ext b := by
          intro b hb
          have hren_b := hren b
          cases hf : ((optionalBase ++ requiredBase additional).map
              (fun b => (b ++ ext, b))).find? (fun kv => kv.2 == b) with
          | none =>
            exfalso
            have hno := List.find?_eq_none.mp hf (b ++ ext, b)
              (List.mem_map.mpr ⟨b, (hmem' b).mpr hb, rfl⟩)
            exact hno (beq_self_eq_true b)
          | some kv =>
            have hkvmem := List.mem_of_find?_eq_some hf
            obtain ⟨x, hx, rfl⟩ := List.mem_map.mp hkvmem
            have hpx := List.find?_some hf
            have hxb : b = x := (eq_of_beq hpx).symm
            subst hxb
            rw [hf] at hren_b
            have hren_b' : lookupD st4.dst b =
                match lookupD (gunzip_files (mkPatterns (requiredBase additional) ext ++
                    mkPatterns optionalBase ext) st2).dst (b ++ ext) with
                | some c => some c
                | none => lookupD (gunzip_files (mkPatterns (requiredBase additional) ext ++
                    mkPatterns optionalBase ext) st2).dst b := hren_b
            rw [hren_b', hF1 b hb]
            unfold canonVal
            cases hsg : lookupD src (b ++ ext ++ ".gz") with
            | some c => rfl
            | none =>
              cases hsp : lookupD src (b ++ ext) with
              | some c => rfl
              | none =>
                have hd0 : lookupD d0 (b ++ ext) = none := by
                  by_contra hc
                  have hrel := (H7b _ (mem_namesD.mpr hc)).1
                  rw [(hext_ne hEe).2.2 b] at hrel
                  cases hrel
                rw [hd0]
                show lookupD (gunzip_files (mkPatterns (requiredBase additional) ext ++
                    mkPatterns optionalBase ext) st2).dst b = lookupD d0 b
                apply hF2 b
                intro b' hb' hc
                have hbg := (H4 b hb).1
                rw [hc, (hext_ne hEe).2.2 b'] at hbg
                cases hbg
        have hst4_other : ∀ m, m ∉ allBases additional →
            lookupD st4.dst m = lookupD d0 m := by
          intro m hm
          have hren_m := hren m
          have hfnone : ((optionalBase ++ requiredBase additional).map
              (fun b => (b ++ ext, b))).find? (fun kv => kv.2 == m) = none := by
            rw [List.find?_eq_none]
            intro kv hkv hckv
            obtain ⟨x, hx, rfl⟩ := List.mem_map.mp hkv
            have hxm : x = m := eq_of_beq hckv
            exact hm (by rw [← hxm]; exact (hmem' x).mp hx)
          rw [hfnone] at hren_m
          have hren_m' : lookupD st4.dst m =
              if ((optionalBase ++ requiredBase additional).map
                (fun b => (b ++ ext, b))).any (fun kv => kv.1 == m) = true then none
              else lookupD (gunzip_files (mkPatterns (requiredBase additional) ext ++
                mkPatterns optionalBase ext) st2).dst m := hren_m
          cases hany : ((optionalBase ++ requiredBase additional).map
              (fun b => (b ++ ext, b))).any (fun kv => kv.1 == m) with
          | true =>
            rw [hany, if_pos rfl] at hren_m'
            rw [List.any_eq_true] at hany
            obtain ⟨kv, hkv, hckv⟩ := hany
            obtain ⟨x, hx, rfl⟩ := List.mem_map.mp hkv
            have hxm : x ++ ext = m := eq_of_beq hckv
            have hd0 : lookupD d0 m = none := by
              by_contra hc
              have hrel := (H7b _ (mem_namesD.mpr hc)).1
              rw [← hxm, (hext_ne hEe).2.2 x] at hrel
              cases hrel
            rw [hren_m', hd0]
          | false =>
            rw [hany] at hren_m'
            simp only [Bool.false_eq_true, if_false] at hren_m'
            rw [hren_m']
            apply hF2 m
            intro b' hb' hc
            have hanyf := List.any_eq_false.mp hany (b' ++ ext, b')
              (List.mem_map.mpr ⟨b', (hmem' b').mpr hb', rfl⟩)
            apply hanyf
            show ((b' ++ ext : String) == m) = true
            rw [hc]
            exact beq_self_eq_true _
        exact ⟨st4, hfin, hst4_base, hst4_other, hnd4⟩
  obtain ⟨st4, hfin4, hbase, hother, hnd4⟩ := hmain
  obtain ⟨c₀, hc₀, hstF⟩ := strict_contcar_decomp hfin4
  have hcanonC : canonVal src d0 ext "CONTCAR" = some c₀ := by
    rw [← hbase "CONTCAR" hCmem]
    exact hc₀
  refine ⟨?_, ?_, ?_, ?_, ?_, ?_⟩
  · intro b hb hbne
    rw [hstF, lookupD_upsert, if_neg (H4 b hb).2.2.2, lookupD_eraseName, if_neg hbne]
    exact hbase b hb
  · rw [hstF, lookupD_upsert, if_neg (show ("CONTCAR" : String) ≠ "POSCAR" by decide),
      lookupD_eraseName, if_pos rfl]
  · rw [hstF, lookupD_upsert, if_pos rfl, hcanonC]
  · rw [hcanonC]
    exact Option.some_ne_none c₀
  · intro m hm hmP hmC
    rw [hstF, lookupD_upsert, if_neg hmP, lookupD_eraseName, if_neg hmC]
    exact hother m hm
  · rw [hstF]
    exact nodup_upsert _ _ (nodup_eraseName _ hnd4)

theorem canonVal_split (src : List (String × String)) (ext b : String) :
    (∀ d0 : List (String × String), canonVal src d0 ext b = lookupD d0 b) ∨
    (∃ c, ∀ d0 : List (String × String), canonVal src d0 ext b = some c) := by
  cases hsg : lookupD src (b ++ ext ++ ".gz") with
  | some c =>
    refine Or.inr ⟨c, fun d0 => ?_⟩
    unfold canonVal
    rw [hsg]
  | none =>
    cases hsp : lookupD src (b ++ ext) with
    | some c =>
      refine Or.inr ⟨c, fun d0 => ?_⟩
      unfold canonVal
      rw [hsg, hsp]
    | none =>
      refine Or.inl (fun d0 => ?_)
      unfold canonVal
      rw [hsg, hsp]

/-- C6 (amended): after every successful run of `copy_vasp_outputs` with
`contcar_to_poscar = true` on a fresh destination and a canonical source
(uniquely named files, every pattern-matched file a catalogued base name
carrying the resolved relax suffix and optionally `.gz`, base names
relax-free, star-free, not `.gz`/`POSCAR`-named), the destination holds a
`POSCAR` whose content is that of the source's suffixed (possibly
compressed) `CONTCAR`, no destination name still carries a relax suffix,
and `POSCAR` itself is never among the names the copy phases copy. -/
theorem contcar_poscar_canonical
    (additional : List String) (src : List (String × String)) (ext : String)
    (stF : FS)
    (H1 : (namesD src).Nodup)
    (H2 : ∀ e ∈ src, (∃ p ∈ mkPatterns (requiredBase additional) ext ++
        mkPatterns optionalBase ext, globMatch p e.1 = true) →
      ∃ b ∈ allBases additional, e.1 = b ++ ext ∨ e.1 = b ++ ext ++ ".gz")
    (H4 : ∀ b ∈ allBases additional, globMatch "*.relax*" b = false ∧
      (∀ c ∈ b.data, c ≠ '*') ∧ b.data.getLast? ≠ some 'z' ∧ b ≠ "POSCAR")
    (H5 : (allBases additional).Nodup)
    (hext : get_largest_relax_extension (src.map (fun e => e.1)) = .ok ext)
    (hrun : copy_vasp_outputs additional true ⟨src, []⟩ = .ok stF) :
    (lookupD stF.dst "POSCAR" = canonVal src [] ext "CONTCAR" ∧
      canonVal src [] ext "CONTCAR" ≠ none) ∧
    (∀ n ∈ namesD stF.dst, globMatch "*.relax*" n = false) ∧
    ¬ CopiedName src (mkPatterns (requiredBase additional) ext ++
        mkPatterns optionalBase ext) "POSCAR" := by
  have H7a : (namesD ([] : List (String × String))).Nodup := List.nodup_nil
  have H7b : ∀ n ∈ namesD ([] : List (String × String)),
      globMatch "*.relax*" n = false ∧ n.data.getLast? ≠ some 'z' := by
    intro n hn
    cases hn
  obtain ⟨hP1, hP2, hP3, hP4, hP5, hP6⟩ :=
    pipeline_lookup additional src [] ext stF H1 H2 H4 H5 hext H7a H7b hrun
  obtain ⟨hestar, hext_ne⟩ := ext_facts (resolver_ok_shape hext)
  refine ⟨⟨hP3, hP4⟩, ?_, ?_⟩
  · intro n hn
    have hlk := mem_namesD.mp hn
    by_cases hnB : n ∈ allBases additional
    · exact (H4 n hnB).1
    · by_cases hnP : n = "POSCAR"
      · subst hnP
        decide
      · by_cases hnC : n = "CONTCAR"
        · subst hnC
          exact absurd hP2 hlk
        · exfalso
          apply hlk
          rw [hP5 n hnB hnP hnC]
          rfl
  · intro hCop
    obtain ⟨⟨b, hb, hform⟩, _⟩ := copied_shape H2 hCop
    rcases hform with hpl | hgzf
    · by_cases hEe : ext = ""
      · rw [hEe, append_empty_str] at hpl
        exact (H4 b hb).2.2.2 hpl.symm
      · have hrel := (hext_ne hEe).2.2 b
        rw [← hpl] at hrel
        revert hrel
        decide
    · have hz := append_gz_getLast (b ++ ext)
      rw [← hgzf] at hz
      revert hz
      decide

/-- C8 (amended): running `copy_vasp_outputs` twice in sequence against
the same canonical source (as in the amended C6), the second run reusing
the first run's destination, leaves every destination file — name and
content alike — exactly as the first run left it. -/
theorem copy_vasp_idempotent_canonical
    (additional : List String) (src : List (String × String)) (ext : String)
    (stF1 stF2 : FS)
    (H1 : (namesD src).Nodup)
    (H2 : ∀ e ∈ src, (∃ p ∈ mkPatterns (requiredBase additional) ext ++
        mkPatterns optionalBase ext, globMatch p e.1 = true) →
      ∃ b ∈ allBases additional, e.1 = b ++ ext ∨ e.1 = b ++ ext ++ ".gz")
    (H4 : ∀ b ∈ allBases additional, globMatch "*.relax*" b = false ∧
      (∀ c ∈ b.data, c ≠ '*') ∧ b.data.getLast? ≠ some 'z' ∧ b ≠ "POSCAR")
    (H5 : (allBases additional).Nodup)
    (hext : get_largest_relax_extension (src.map (fun e => e.1)) = .ok ext)
    (hrun1 : copy_vasp_outputs additional true ⟨src, []⟩ = .ok stF1)
    (hrun2 : copy_vasp_outputs additional true ⟨src, stF1.dst⟩ = .ok stF2) :
    ∀ m, lookupD stF2.dst m = lookupD stF1.dst m := by
  have H7a1 : (namesD ([] : List (String × String))).Nodup := List.nodup_nil
  have H7b1 : ∀ n ∈ namesD ([] : List (String × String)),
      globMatch "*.relax*" n = false ∧ n.data.getLast? ≠ some 'z' := by
    intro n hn
    cases hn
  obtain ⟨hQ1, hQ2, hQ3, hQ4, hQ5, hQ6⟩ :=
    pipeline_lookup additional src [] ext stF1 H1 H2 H4 H5 hext H7a1 H7b1 hrun1
  obtain ⟨hestar, hext_ne⟩ := ext_facts (resolver_ok_shape hext)
  have hCmem : "CONTCAR" ∈ allBases additional := by
    unfold allBases requiredBase
    simp
  have H7b2 : ∀ n ∈ namesD stF1.dst,
      globMatch "*.relax*" n = false ∧ n.data.getLast? ≠ some 'z' := by
    intro n hn
    have hlk := mem_namesD.mp hn
    by_cases hnB : n ∈ allBases additional
    · exact ⟨(H4 n hnB).1, (H4 n hnB).2.2.1⟩
    · by_cases hnP : n = "POSCAR"
      · subst hnP
        exact ⟨by decide, by decide⟩
      · by_cases hnC : n = "CONTCAR"
        · subst hnC
          exact absurd hQ2 hlk
        · exfalso
          apply hlk
          rw [hQ5 n hnB hnP hnC]
          rfl
  obtain ⟨hR1, hR2, hR3, hR4, hR5, hR6⟩ :=
    pipeline_lookup additional src stF1.dst ext stF2 H1 H2 H4 H5 hext hQ6 H7b2 hrun2
  intro m
  by_cases hmB : m ∈ allBases additional
  · by_cases hmC : m = "CONTCAR"
    · subst hmC
      rw [hR2, hQ2]
    · rcases canonVal_split src ext m with hfall | ⟨c, hfix⟩
      · rw [hR1 m hmB hmC, hfall stF1.dst]
      · rw [hR1 m hmB hmC, hfix stF1.dst, hQ1 m hmB hmC, hfix []]
  · by_cases hmP : m = "POSCAR"
    · subst hmP
      rcases canonVal_split src ext "CONTCAR" with hfall | ⟨c, hfix⟩
      · exfalso
        apply hQ4
        rw [hfall []]
        rfl
      · rw [hR3, hQ3, hfix stF1.dst, hfix []]
    · have hmC : m ≠ "CONTCAR" := fun h => hmB (by rw [h]; exact hCmem)
      rw [hR5 m hmB hmP hmC]

theorem contcar_poscar_canonical_witness :
    get_largest_relax_extension (srcCanonW.map (fun e => e.1)) = .ok ".relax2" ∧
    ((lookupD dstCanonW "POSCAR" = canonVal srcCanonW [] ".relax2" "CONTCAR" ∧
        canonVal srcCanonW [] ".relax2" "CONTCAR" ≠ none) ∧
      (∀ n ∈ namesD dstCanonW, globMatch "*.relax*" n = false) ∧
      ¬ CopiedName srcCanonW (mkPatterns (requiredBase []) ".relax2" ++
          mkPatterns optionalBase ".relax2") "POSCAR") :=
  ⟨by decide,
    contcar_poscar_canonical [] srcCanonW ".relax2" ⟨srcCanonW, dstCanonW⟩
      (by decide) (by decide) (by decide) (by decide) (by decide) (by decide)⟩

theorem copy_vasp_idempotent_canonical_witness :
    copy_vasp_outputs [] true ⟨srcCanonW, []⟩ = .ok ⟨srcCanonW, dstCanonW⟩ ∧
    copy_vasp_outputs [] true ⟨srcCanonW, dstCanonW⟩ = .ok ⟨srcCanonW, dstCanonW⟩ ∧
    (∀ m, lookupD dstCanonW m = lookupD dstCanonW m) :=
  ⟨by decide, by decide,
    copy_vasp_idempotent_canonical [] srcCanonW ".relax2"
      ⟨srcCanonW, dstCanonW⟩ ⟨srcCanonW, dstCanonW⟩
      (by decide) (by decide) (by decide) (by decide) (by decide)
      (by decide) (by decide)⟩

end Vasp
